import Mathlib

/-!
Verification of the sanctions-screening core (`ofac.py`).

A shallow embedding of the entity-normalization, similarity-scoring and
screening logic of `ofac.py`, together with theorems settling the frozen
claims about that program.

Strings are modelled as `List Char`, Python floats as exact rationals `ℚ`,
Python byte strings as `List Nat`.  Machine details that cannot influence
any theorem below (float rounding) are idealized; everything else follows
the Python source line by line.
-/

set_option maxRecDepth 16000

namespace Ofac

/-- Python's binary `max` on floats, written as an `if` so that it
evaluates inside the kernel (it equals `max`, see `pyMax_eq`). -/
def pyMax (x y : ℚ) : ℚ := if x ≤ y then y else x

/-- Python's binary `min` on floats (equals `min`, see `pyMin_eq`). -/
def pyMin (x y : ℚ) : ℚ := if x ≤ y then x else y

/-! ## Character classes used by `_normalize` -/

/-- The character class of the regex `[^a-z0-9]` in `_normalize`
(`ofac.py` line 131): a character *outside* this predicate is replaced. -/
def isLowerAlnum (c : Char) : Bool :=
  ('0' ≤ c && c ≤ '9') || ('a' ≤ c && c ≤ 'z')

/-- Python's `\s` / `str.strip` whitespace, restricted to the ASCII
whitespace characters (the only whitespace that can occur in this pipeline:
after the `[^a-z0-9]+` substitution the string contains `' '` only). -/
def isPyWs (c : Char) : Bool :=
  c == '\x20' || c == '\x09' || c == '\x0a' || c == '\x0b' || c == '\x0c' ||
    c == '\x0d'

/-- Python `str.lower`, modelled per character.  CPython performs full Unicode
lowercasing; on the character set exercised in this development (ASCII) the
two agree. -/
def pyLowerChar (c : Char) : Char :=
  if 'A' ≤ c && c ≤ 'Z' then Char.ofNat (c.toNat + 32) else c

/-- Modelled from the Unicode character database: the NFKC
(compatibility-decompose, then canonically compose) mapping of the
characters used in this development.  NFKC is the identity on ASCII;
U+2460 CIRCLED DIGIT ONE has compatibility decomposition `"1"`.  On strings
free of combining marks and of canonically decomposable characters, NFKC
acts characterwise, so `unicodedata.normalize("NFKC", s)` is modelled as a
per-character map. -/
def nfkcChar (c : Char) : List Char :=
  if c = '①' then ['1'] else [c]

/-- Modelled from the Unicode character database: NFC (canonical-compose)
normalization for the characters used in this development.  NFC is the
identity on ASCII and on U+2460 (which has no *canonical* decomposition);
none of the characters used is a combining mark, so NFC is the identity
map here. -/
def nfcChar (c : Char) : List Char := [c]

def nfkc (l : List Char) : List Char := (l.map nfkcChar).flatten

def nfc (l : List Char) : List Char := (l.map nfcChar).flatten

/-- Python `s.replace("&", " and ")` (`ofac.py` line 130). -/
def replaceAmp (l : List Char) : List Char :=
  (l.map (fun c => if c = '&' then " and ".toList else [c])).flatten

/-- State machine for `re.sub(r"[^a-z0-9]+", " ", s)`: when `inRun` is
set, the single `' '` for the current run of characters outside `[a-z0-9]`
has already been emitted, so further run characters are dropped. -/
def collapseNAGo (inRun : Bool) : List Char → List Char
  | [] => []
  | c :: cs =>
    if isLowerAlnum c then c :: collapseNAGo false cs
    else if inRun then collapseNAGo true cs
    else ' ' :: collapseNAGo true cs

/-- Python `re.sub(r"[^a-z0-9]+", " ", s)` (`ofac.py` line 131): every maximal run
of characters outside `[a-z0-9]` becomes a single `' '`. -/
def collapseNonAlnum (l : List Char) : List Char := collapseNAGo false l

/-- State machine for `re.sub(r"\s+", " ", s)`, as `collapseNAGo`. -/
def collapseWsGo (inRun : Bool) : List Char → List Char
  | [] => []
  | c :: cs =>
    if isPyWs c then
      if inRun then collapseWsGo true cs else ' ' :: collapseWsGo true cs
    else c :: collapseWsGo false cs

/-- Python `re.sub(r"\s+", " ", s)` (`ofac.py` line 132): every maximal whitespace
run becomes a single `' '`. -/
def collapseWs (l : List Char) : List Char := collapseWsGo false l

/-- Python `str.strip()` (`ofac.py` line 132): remove leading and trailing
whitespace. -/
def stripWs (l : List Char) : List Char :=
  ((l.dropWhile isPyWs).reverse.dropWhile isPyWs).reverse

/-- The source `_normalize` (`ofac.py` lines 127-133): NFKC, lowercase,
`&`-replacement, collapse `[^a-z0-9]+` runs, collapse `\s+` runs, strip. -/
def pyNormalize (s : List Char) : List Char :=
  stripWs (collapseWs (collapseNonAlnum (replaceAmp ((nfkc s).map pyLowerChar))))

/-- Accumulator pass for `str.split()`: `acc` is the reversed current
token. -/
def pySplitGo (acc : List Char) : List Char → List (List Char)
  | [] => if acc.isEmpty then [] else [acc.reverse]
  | c :: cs =>
    if isPyWs c then
      if acc.isEmpty then pySplitGo [] cs else acc.reverse :: pySplitGo [] cs
    else pySplitGo (c :: acc) cs

/-- Python `str.split()` with no separator: split on whitespace runs, dropping
empty tokens. -/
def pySplit (l : List Char) : List (List Char) := pySplitGo [] l

/-! ## `difflib.SequenceMatcher` (CPython), as used by `_token_set_similarity`

`_token_set_similarity` (`ofac.py` line 154) computes
`difflib.SequenceMatcher(None, a_n, b_n).ratio()`.  With `isjunk = None`
the junk set is empty, so the two junk-extension loops of
`find_longest_match` never fire and are omitted; the "autojunk" purge of
popular elements (active when `len(b) >= 200`) is modelled in `b2j`. -/

/-- Python `SequenceMatcher.__chain_b`: the ascending list of positions of `c` in
`b`, with "popular" elements purged when autojunk applies
(`len(b) >= 200` and the element occurs more than `len(b)//100 + 1`
times). -/
def b2j (b : List Char) (c : Char) : List Nat :=
  let ps := (List.range b.length).filter (fun j => b.getD j ' ' == c)
  if 200 ≤ b.length && b.length / 100 + 1 < ps.length then [] else ps

/-- The inner loop of `find_longest_match` for one row `i`: walk the
positions `js` of `a[i]` in `b` (already restricted to `[blo, bhi)`),
building the new run-length table and updating the best block.
`j2len` is the table of the previous row; a run of length `k` ending at
`(i, j)` yields candidate block `(i-k+1, j-k+1, k)`, adopted only when
strictly longer than the current best. -/
def innerLoop (i : Nat) (j2len : Nat → Nat) :
    List Nat → (Nat → Nat) → (Nat × Nat × Nat) → ((Nat → Nat) × (Nat × Nat × Nat))
  | [], acc, best => (acc, best)
  | j :: js, acc, best =>
    let k := (if j = 0 then 0 else j2len (j - 1)) + 1
    let acc' := fun j' => if j' = j then k else acc j'
    let best' := if best.2.2 < k then (i + 1 - k, j + 1 - k, k) else best
    innerLoop i j2len js acc' best'

/-- The outer loop of `find_longest_match` over the rows
`i ∈ [alo, ahi)`. -/
def outerLoop (a b : List Char) (blo bhi : Nat) :
    List Nat → (Nat → Nat) → (Nat × Nat × Nat) → (Nat × Nat × Nat)
  | [], _, best => best
  | i :: rows, j2len, best =>
    let js := (b2j b (a.getD i ' ')).filter (fun j => blo ≤ j && j < bhi)
    let r := innerLoop i j2len js (fun _ => 0) best
    outerLoop a b blo bhi rows r.1 r.2

/-- The first while-loop after the main loop of `find_longest_match`:
extend the best block leftwards over equal elements (the junk test is
vacuous since `isjunk = None`).  Structural recursion on `i`: when
`i = 0` the guard `alo < i` is false and the loop exits, exactly as in
the source. -/
def extendLeft (a b : List Char) (alo blo : Nat) : Nat → Nat → Nat → Nat × Nat × Nat
  | 0, j, k => (0, j, k)
  | i + 1, j, k =>
    if alo < i + 1 ∧ blo < j ∧ a.getD i ' ' = b.getD (j - 1) ' ' then
      extendLeft a b alo blo i (j - 1) (k + 1)
    else (i + 1, j, k)

/-- The second while-loop of `find_longest_match`, with the remaining room
`ahi - (i + k)` made explicit as a structural argument: when it is `0` the
guard `i + k < ahi` is false and the loop exits. -/
def extendRightF (a b : List Char) (ahi bhi : Nat) : Nat → Nat → Nat → Nat → Nat × Nat × Nat
  | 0, i, j, k => (i, j, k)
  | fuel + 1, i, j, k =>
    if i + k < ahi ∧ j + k < bhi ∧ a.getD (i + k) ' ' = b.getD (j + k) ' ' then
      extendRightF a b ahi bhi fuel i j (k + 1)
    else (i, j, k)

/-- The second while-loop of `find_longest_match`: extend the best block
rightwards over equal elements. -/
def extendRight (a b : List Char) (ahi bhi : Nat) (i j k : Nat) : Nat × Nat × Nat :=
  extendRightF a b ahi bhi (ahi - (i + k)) i j k

/-- Python `SequenceMatcher.find_longest_match(alo, ahi, blo, bhi)` with
`isjunk = None`: main loop, then left and right extension. -/
def findLongestMatch (a b : List Char) (alo ahi blo bhi : Nat) : Nat × Nat × Nat :=
  let m := outerLoop a b blo bhi (List.range' alo (ahi - alo)) (fun _ => 0) (alo, blo, 0)
  let m2 := extendLeft a b alo blo m.1 m.2.1 m.2.2
  extendRight a b ahi bhi m2.1 m2.2.1 m2.2.2

/-- Total number of matched elements: the sum of the block sizes produced
by `SequenceMatcher.get_matching_blocks` (the block-merging step there
preserves this sum, and the queue order is irrelevant to it).  The
recursion follows the queue: recurse left and right of each found block.
The guard records the contract stated in `find_longest_match`'s docstring
(`alo <= i <= i+k <= ahi` and `blo <= j <= j+k <= bhi` whenever a block is
found); `find_longest_match` always satisfies it.  The first argument is
recursion fuel: every recursive call strictly shrinks
`(ahi - alo) + (bhi - blo)`, so any fuel at or above that measure gives
the same value (`matchTotalF_congr` below). -/
def matchTotalF (a b : List Char) : Nat → Nat → Nat → Nat → Nat → Nat
  | 0, _, _, _, _ => 0
  | fuel + 1, alo, ahi, blo, bhi =>
    let r := findLongestMatch a b alo ahi blo bhi
    if r.2.2 ≠ 0 ∧ alo ≤ r.1 ∧ r.1 + r.2.2 ≤ ahi ∧
        blo ≤ r.2.1 ∧ r.2.1 + r.2.2 ≤ bhi then
      r.2.2 + matchTotalF a b fuel alo r.1 blo r.2.1 +
        matchTotalF a b fuel (r.1 + r.2.2) ahi (r.2.1 + r.2.2) bhi
    else 0

def matchTotal (a b : List Char) (alo ahi blo bhi : Nat) : Nat :=
  matchTotalF a b (ahi - alo + (bhi - blo)) alo ahi blo bhi

/-- Python `SequenceMatcher.ratio()`: `2*M / T` where `M` is the total matched
size and `T` the total length (and `1.0` when both sequences are empty,
per `_calculate_ratio`). -/
def smRatioQ (a b : List Char) : ℚ :=
  if a.length + b.length = 0 then 1
  else 2 * (matchTotal a b 0 a.length 0 b.length : ℚ) /
    ((a.length : ℚ) + (b.length : ℚ))

/-! ## `_token_set_similarity` -/

/-- The deduplicated token set of a string, as a `Finset`: Python's
`set(s.split())`. -/
def tokenSet (l : List Char) : Finset (List Char) := (pySplit l).toFinset

/-- The source `_token_set_similarity` (`ofac.py` lines 136-157): normalize both
strings; `0.0` if either normalization is empty; otherwise
`100 * (0.80 * jaccard + 0.20 * ratio)` clamped to `[0, 100]`, where
`jaccard = |A ∩ B| / max 1 |A ∪ B|` on the token sets. -/
def tokenSetSimilarity (a b : List Char) : ℚ :=
  if (pyNormalize a).isEmpty || (pyNormalize b).isEmpty then 0
  else
    pyMax 0 (pyMin 100
      (((80 / 100 : ℚ) *
          (((tokenSet (pyNormalize a) ∩ tokenSet (pyNormalize b)).card : ℚ) /
            ((Nat.max 1 (tokenSet (pyNormalize a) ∪ tokenSet (pyNormalize b)).card : Nat) : ℚ)) +
        (20 / 100 : ℚ) * smRatioQ (pyNormalize a) (pyNormalize b)) * 100))

/-! ## Data model of `screen_company` -/

/-- The source `MatchEvidence` (`ofac.py` lines 98-102). -/
structure MatchEvidence where
  field : String
  matched_value : List Char
  score : ℚ
deriving DecidableEq, Repr

/-- One entry of the in-memory index built by `_index_snapshot`
(`ofac.py` lines 379-406), as consumed by `screen_company`. -/
structure EntityRec where
  source_list : String
  entity_id : String
  primary : List (List Char)
  aliases : List (List Char)
  programs : List (List Char)
  addresses : List (List Char)
deriving DecidableEq, Repr

/-- The source `EntityHit` (`ofac.py` lines 105-114). -/
structure EntityHit where
  entity_id : String
  source_list : String
  best_score : ℚ
  best_evidence : MatchEvidence
  primary_names : List (List Char)
  alias_names : List (List Char)
  programs : List (List Char)
  addresses : List (List Char)
deriving DecidableEq, Repr

/-- One of the two evidence loops of `screen_company` (`ofac.py`
lines 861-870): fold over a name list, replacing the best evidence only on
a strictly greater score. -/
def bestAgainst (f : String) (q : List Char) (names : List (List Char))
    (best : MatchEvidence) : MatchEvidence :=
  names.foldl (fun b n =>
    let s := tokenSetSimilarity q n
    if b.score < s then ⟨f, n, s⟩ else b) best

/-- The best evidence of one entity against the query: start from
`MatchEvidence("primary", "", 0.0)`, fold the primary names, then the
aliases (`ofac.py` lines 858-870). -/
def bestEvidence (q : List Char) (ent : EntityRec) : MatchEvidence :=
  bestAgainst "alias" q ent.aliases
    (bestAgainst "primary" q ent.primary ⟨"primary", [], 0⟩)

/-- Insert into a sorted list, keeping `x` before the first element it may
precede: with a total `le` this is the stable insertion step. -/
def insertLe (le : α → α → Bool) (x : α) : List α → List α
  | [] => [x]
  | y :: ys => if le x y then x :: y :: ys else y :: insertLe le x ys

/-- Stable insertion sort; with `le x y := y.best_score ≤ x.best_score`
this is extensionally Python's stable `list.sort(key=score, reverse=True)`
(`ofac.py` line 886): descending scores, exact ties in input order. -/
def sortLe (le : α → α → Bool) : List α → List α
  | [] => []
  | x :: xs => insertLe le x (sortLe le xs)

/-- Python string comparison (code-point lexicographic), for
`sorted(...)` on the display fields. -/
def lexLe : List Char → List Char → Bool
  | [], _ => true
  | _ :: _, [] => false
  | c :: cs, d :: ds => if c = d then lexLe cs ds else decide (c < d)

/-- Comparison used to rank hits: `h1` may precede `h2` when its score is
at least as large (keeps earlier-inserted hits first on ties). -/
def hitGe (h1 h2 : EntityHit) : Bool := decide (h2.best_score ≤ h1.best_score)

/-- Python list slicing `l[:k]`, with `k` a possibly negative `int`. -/
def pyTake (l : List α) (k : Int) : List α :=
  if 0 ≤ k then l.take k.toNat else l.take ((l.length : Int) + k).toNat

/-- Construction of an `EntityHit` from a surviving entity (`ofac.py`
lines 873-884): truncated name lists, sorted program/address sets. -/
def mkHit (ent : EntityRec) (best : MatchEvidence) : EntityHit :=
  { entity_id := ent.entity_id
    source_list := ent.source_list
    best_score := best.score
    best_evidence := best
    primary_names := ent.primary.take 5
    alias_names := ent.aliases.take 5
    programs := sortLe lexLe ent.programs
    addresses := (sortLe lexLe ent.addresses).take 5 }

/-- The hits surviving the review floor, in index insertion order
(`ofac.py` lines 856-884). -/
def surviveFloor (q : List Char) (index : List EntityRec) (review : ℚ) :
    List EntityHit :=
  index.filterMap (fun ent =>
    let best := bestEvidence q ent
    if review ≤ best.score then some (mkHit ent best) else none)

/-- The source `screen_company` (`ofac.py` lines 832-896), restricted to its core:
the snapshot I/O is external (the index is handed in), and the returned
snapshot id is dropped.  Raises `ValueError` — modelled as `Except.error`
— iff the query normalizes to the empty string; otherwise scores every
entity, keeps those at or above `review`, sorts stably by descending
score, truncates to `top_k` (Python slice semantics), and decides
`PASS`/`REVIEW`/`BLOCK`. -/
def screenCompany (q : List Char) (index : List EntityRec) (topK : Int)
    (review block : ℚ) : Except String (List EntityHit × String) :=
  if (pyNormalize q).isEmpty then
    .error "Company name is empty after normalization"
  else
    let ranked := sortLe hitGe (surviveFloor q index review)
    let trunc := pyTake ranked topK
    let decision :=
      match trunc with
      | [] => "PASS"
      | h :: _ => if block ≤ h.best_score then "BLOCK" else "REVIEW"
    .ok (trunc, decision)

instance {ε α : Type} [DecidableEq ε] [DecidableEq α] : DecidableEq (Except ε α)
  | .error a, .error b =>
    if h : a = b then .isTrue (by rw [h])
    else .isFalse (fun hc => h (by injection hc))
  | .error _, .ok _ => .isFalse (fun hc => Except.noConfusion hc)
  | .ok _, .error _ => .isFalse (fun hc => Except.noConfusion hc)
  | .ok a, .ok b =>
    if h : a = b then .isTrue (by rw [h])
    else .isFalse (fun hc => h (by injection hc))

/-- The decision component of a screening result (the error message on a
rejected query). -/
def screenDecision (r : Except String (List EntityHit × String)) : String :=
  match r with
  | .ok p => p.2
  | .error e => e

/-- The number of returned hits (`0` on a rejected query). -/
def screenHitCount (r : Except String (List EntityHit × String)) : Nat :=
  match r with
  | .ok p => p.1.length
  | .error _ => 0

/-- Whether the screening call aborted. -/
def screenIsError (r : Except String (List EntityHit × String)) : Bool :=
  match r with
  | .ok _ => false
  | .error _ => true

/-! ## The generic CSV index builder of `_index_snapshot`

The OFAC-Consolidated branch (`ofac.py` lines 395-448): the closures
`ensure` / `add_primary` / `add_aliases` / `add_addresses` folded over the
rows of `CONS_PRIM.CSV`, `CONS_ALT.CSV` and `CONS_ADD.CSV` (all present).
A CSV row is a finite map from header names to already-stripped cell
strings; Python's ordered `dict` index is an association list. -/

abbrev Row := List (String × String)

/-- The source `row.get(k)`. -/
def rowGet (r : Row) (k : String) : Option String := r.lookup k

/-- A chain `row.get(k1) or row.get(k2) or ...`: the first *truthy*
(present and non-empty) value, if any. -/
def pickFirst (r : Row) : List String → Option String
  | [] => none
  | k :: ks =>
    match rowGet r k with
    | some v => if v ≠ "" then some v else pickFirst r ks
    | none => pickFirst r ks

/-- The source `_pick_entity_id` (`ofac.py` lines 343-353). -/
def pickEntityId (r : Row) : Option String :=
  pickFirst r ["Entity Number", "Entity_Number", "entity_number", "EntNum",
    "ent_num", "ID", "Id"]

/-- The source `_pick_name` (`ofac.py` lines 356-358). -/
def pickName (r : Row) : Option String :=
  pickFirst r ["Name", "name", "Entity Name", "entity_name", "SDN_Name",
    "alt_name"]

/-- The source `_pick_program` (`ofac.py` lines 361-362). -/
def pickProgram (r : Row) : Option String :=
  pickFirst r ["Program", "Programs", "program", "Sanctions Program"]

/-- The source `_pick_address` (`ofac.py` lines 365-376): join the present,
non-`"-0-"` address parts with `", "`, else fall back to the raw
`address` field. -/
def pickAddress (r : Row) : Option String :=
  let parts := ["Address", "Street", "City", "State/Province", "Postal Code",
    "Country", "CityStateProvincePostalCode"].filterMap (fun k =>
      match rowGet r k with
      | some v => if v ≠ "" ∧ v ≠ "-0-" then some v else none
      | none => none)
  if parts ≠ [] then some (String.intercalate ", " parts)
  else rowGet r "address"

/-- The mutable per-key builder record of `_index_snapshot`
(`ofac.py` lines 398-405).  Raw CSV strings, so fields are `String`. -/
structure EntityB where
  source_list : String
  entity_id : String
  primary : List String
  aliases : List String
  programs : List String
  addresses : List String
deriving DecidableEq, Repr

abbrev ConsIndex := List (String × EntityB)

def consKey (sl eid : String) : String := sl ++ ":" ++ eid

/-- The source `ensure` (`ofac.py` lines 395-406): create the keyed entry with empty
name lists if absent. -/
def ensure (idx : ConsIndex) (sl eid : String) : ConsIndex :=
  if (idx.lookup (consKey sl eid)).isSome then idx
  else idx ++ [(consKey sl eid, ⟨sl, eid, [], [], [], []⟩)]

def updateEnt (idx : ConsIndex) (key : String) (f : EntityB → EntityB) :
    ConsIndex :=
  idx.map (fun p => if p.1 = key then (p.1, f p.2) else p)

/-- Python `set.add` modelled on an insertion-ordered duplicate-free
list. -/
def addSet (l : List String) (x : String) : List String :=
  if x ∈ l then l else l ++ [x]

/-- One row of `add_primary` (`ofac.py` lines 408-418): skip when id or
name is falsy; otherwise ensure the entity, append the name, and add the
program when present. -/
def addPrimaryRow (sl : String) (idx : ConsIndex) (r : Row) : ConsIndex :=
  match pickEntityId r, pickName r with
  | some eid, some name =>
    updateEnt (ensure idx sl eid) (consKey sl eid) (fun e =>
      let e' := { e with primary := e.primary ++ [name] }
      match pickProgram r with
      | some p => { e' with programs := addSet e'.programs p }
      | none => e')
  | _, _ => idx

/-- One row of `add_aliases` (`ofac.py` lines 420-427). -/
def addAliasRow (sl : String) (idx : ConsIndex) (r : Row) : ConsIndex :=
  match pickEntityId r, pickName r with
  | some eid, some name =>
    updateEnt (ensure idx sl eid) (consKey sl eid) (fun e =>
      { e with aliases := e.aliases ++ [name] })
  | _, _ => idx

/-- One row of `add_addresses` (`ofac.py` lines 429-437): note that
`ensure` runs as soon as the row has an id, *before* any address (or
name) check. -/
def addAddressRow (sl : String) (idx : ConsIndex) (r : Row) : ConsIndex :=
  match pickEntityId r with
  | none => idx
  | some eid =>
    let idx' := ensure idx sl eid
    match pickAddress r with
    | some a =>
      if a ≠ "" then
        updateEnt idx' (consKey sl eid) (fun e =>
          { e with addresses := addSet e.addresses a })
      else idx'
    | none => idx'

/-- The OFAC-Consolidated portion of `_index_snapshot` (`ofac.py`
lines 439-448) with all three files present: primaries, then aliases,
then addresses. -/
def consIndex (prim alt addr : List Row) : ConsIndex :=
  addr.foldl (addAddressRow "OFAC-CONS")
    (alt.foldl (addAliasRow "OFAC-CONS")
      (prim.foldl (addPrimaryRow "OFAC-CONS") []))

/-! ## SHA-256 and the pseudo-identifier

`_sha256_bytes` (`ofac.py` lines 121-124) is `hashlib.sha256(...).hexdigest()`;
the algorithm below is FIPS 180-4 SHA-256 over byte lists (bytes as `Nat`
< 256, words as `Nat` < 2^32). -/

def utf8Char (c : Char) : List Nat :=
  let n := c.toNat
  if n < 0x80 then [n]
  else if n < 0x800 then [0xC0 + n / 0x40, 0x80 + n % 0x40]
  else if n < 0x10000 then
    [0xE0 + n / 0x1000, 0x80 + n / 0x40 % 0x40, 0x80 + n % 0x40]
  else
    [0xF0 + n / 0x40000, 0x80 + n / 0x1000 % 0x40, 0x80 + n / 0x40 % 0x40,
      0x80 + n % 0x40]

/-- Python `str.encode("utf-8")`. -/
def utf8Encode (l : List Char) : List Nat := (l.map utf8Char).flatten

def add32 (x y : Nat) : Nat := (x + y) % 2 ^ 32

def rotr32 (n x : Nat) : Nat := (x / 2 ^ n + x % 2 ^ n * 2 ^ (32 - n)) % 2 ^ 32

def xor3 (x y z : Nat) : Nat := Nat.xor (Nat.xor x y) z

def bsig0 (x : Nat) : Nat := xor3 (rotr32 2 x) (rotr32 13 x) (rotr32 22 x)

def bsig1 (x : Nat) : Nat := xor3 (rotr32 6 x) (rotr32 11 x) (rotr32 25 x)

def ssig0 (x : Nat) : Nat := xor3 (rotr32 7 x) (rotr32 18 x) (x / 2 ^ 3)

def ssig1 (x : Nat) : Nat := xor3 (rotr32 17 x) (rotr32 19 x) (x / 2 ^ 10)

def chFn (e f g : Nat) : Nat :=
  Nat.xor (Nat.land e f) (Nat.land (Nat.xor e 0xFFFFFFFF) g)

def majFn (x y z : Nat) : Nat :=
  Nat.xor (Nat.xor (Nat.land x y) (Nat.land x z)) (Nat.land y z)

/-- The 64 SHA-256 round constants (FIPS 180-4, in decimal). -/
def kConst : List Nat := [
  1116352408, 1899447441, 3049323471, 3921009573, 961987163,
  1508970993, 2453635748, 2870763221, 3624381080, 310598401,
  607225278, 1426881987, 1925078388, 2162078206, 2614888103,
  3248222580, 3835390401, 4022224774, 264347078, 604807628,
  770255983, 1249150122, 1555081692, 1996064986, 2554220882,
  2821834349, 2952996808, 3210313671, 3336571891, 3584528711,
  113926993, 338241895, 666307205, 773529912, 1294757372,
  1396182291, 1695183700, 1986661051, 2177026350, 2456956037,
  2730485921, 2820302411, 3259730800, 3345764771, 3516065817,
  3600352804, 4094571909, 275423344, 430227734, 506948616,
  659060556, 883997877, 958139571, 1322822218, 1537002063,
  1747873779, 1955562222, 2024104815, 2227730452, 2361852424,
  2428436474, 2756734187, 3204031479, 3329325298]

structure Sha256State where
  a : Nat
  b : Nat
  c : Nat
  d : Nat
  e : Nat
  f : Nat
  g : Nat
  hh : Nat
deriving Repr

def sha256Init : Sha256State :=
  ⟨1779033703, 3144134277, 1013904242, 2773480762,
    1359893119, 2600822924, 528734635, 1541459225⟩

/-- Append the `0x80` marker, zero padding, and the 64-bit big-endian bit
length, reaching a multiple of 64 bytes. -/
def padMsg (m : List Nat) : List Nat :=
  let L := m.length
  let z := (64 - (L + 9) % 64) % 64
  m ++ 0x80 :: List.replicate z 0 ++
    [8 * L / 2 ^ 56 % 256, 8 * L / 2 ^ 48 % 256, 8 * L / 2 ^ 40 % 256,
      8 * L / 2 ^ 32 % 256, 8 * L / 2 ^ 24 % 256, 8 * L / 2 ^ 16 % 256,
      8 * L / 2 ^ 8 % 256, 8 * L % 256]

/-- Big-endian 32-bit words from bytes. -/
def toWords : List Nat → List Nat
  | b0 :: b1 :: b2 :: b3 :: rest =>
    (((b0 * 256 + b1) * 256 + b2) * 256 + b3) :: toWords rest
  | _ => []

/-- The 64-entry message schedule from the 16 block words. -/
def schedule (w16 : List Nat) : List Nat :=
  (List.range 48).foldl (fun w i =>
    w ++ [add32 (add32 (ssig1 (w.getD (i + 14) 0)) (w.getD (i + 9) 0))
      (add32 (ssig0 (w.getD (i + 1) 0)) (w.getD i 0))]) w16

def sha256Round (st : Sha256State) (kw : Nat × Nat) : Sha256State :=
  let t1 := add32 (add32 (add32 st.hh (bsig1 st.e))
    (add32 (chFn st.e st.f st.g) kw.1)) kw.2
  let t2 := add32 (bsig0 st.a) (majFn st.a st.b st.c)
  ⟨add32 t1 t2, st.a, st.b, st.c, add32 st.d t1, st.e, st.f, st.g⟩

def sha256Block (st : Sha256State) (block : List Nat) : Sha256State :=
  let w := schedule (toWords block)
  let r := (kConst.zip w).foldl sha256Round st
  ⟨add32 st.a r.a, add32 st.b r.b, add32 st.c r.c, add32 st.d r.d,
    add32 st.e r.e, add32 st.f r.f, add32 st.g r.g, add32 st.hh r.hh⟩

def chunks64F : Nat → List Nat → List (List Nat)
  | 0, _ => []
  | _, [] => []
  | fuel + 1, c :: l => ((c :: l).take 64) :: chunks64F fuel ((c :: l).drop 64)

/-- Split into 64-byte blocks.  The fuel `l.length` is sufficient: each
step consumes at least one byte. -/
def chunks64 (l : List Nat) : List (List Nat) := chunks64F l.length l

def be32 (w : Nat) : List Nat :=
  [w / 2 ^ 24 % 256, w / 2 ^ 16 % 256, w / 2 ^ 8 % 256, w % 256]

/-- SHA-256 digest: 32 bytes. -/
def sha256 (m : List Nat) : List Nat :=
  let st := (chunks64 (padMsg m)).foldl sha256Block sha256Init
  ([st.a, st.b, st.c, st.d, st.e, st.f, st.g, st.hh].map be32).flatten

def hexDigit (n : Nat) : Char :=
  if n < 10 then Char.ofNat (48 + n) else Char.ofNat (87 + n)

/-- Lowercase hex string of a byte list (`hexdigest()`). -/
def toHex (bs : List Nat) : List Char :=
  (bs.map (fun b => [hexDigit (b / 16), hexDigit (b % 16)])).flatten

/-- The source `_sha256_bytes` (`ofac.py` lines 121-124): lowercase hex digest. -/
def sha256hex (m : List Nat) : List Char := toHex (sha256 m)

/-- The pseudo-identifier assignment of the World Bank branch of
`_index_snapshot` (`ofac.py` lines 803-809): when the row's `id` field is
falsy (or pandas' `"nan"`), derive
`"WB-" + _sha256_bytes(name.encode("utf-8"))[:8]` from the *extracted*
name. -/
def wbAssignId (uid name : List Char) : List Char :=
  if uid = [] ∨ uid = "nan".toList then
    "WB-".toList ++ (sha256hex (utf8Encode name)).take 8
  else uid

/-- The source Canada (SEMA) branch of `_index_snapshot` (`ofac.py`
lines 683-684): a record whose `Item` field is falsy gets
`"CA-" + _sha256_bytes(name.encode("utf-8"))[:8]`. -/
def caAssignId (uid name : List Char) : List Char :=
  if uid = [] then
    "CA-".toList ++ (sha256hex (utf8Encode name)).take 8
  else uid

/-- The source Australia (DFAT) branch of `_index_snapshot` (`ofac.py`
lines 731-732): same pattern as the World Bank branch, with the `AU`
code. -/
def auAssignId (uid name : List Char) : List Char :=
  if uid = [] ∨ uid = "nan".toList then
    "AU-".toList ++ (sha256hex (utf8Encode name)).take 8
  else uid

/-- The source BIS branch of `_index_snapshot` (`ofac.py` line 481):
`eid = r.get("Entity Number", "").strip() or name` — a BIS row without an
entity number is keyed by the *raw extracted name itself*, with no digest
and no source-code prefix. -/
def bisAssignId (entnum name : List Char) : List Char :=
  if entnum = [] then name else entnum

/-! ## The normalization pipeline as the spec words it (for claim C2) -/

/-- The claim's step list taken literally: *canonical*-compose Unicode
normalization (NFC), lowercasing, `&` rewritten to the word `"and"`,
every run of non-alphanumeric characters collapsed to a single space,
leading/trailing space trimmed. -/
def specNormalizeNFC (s : List Char) : List Char :=
  stripWs (collapseNonAlnum (replaceAmp ((nfc s).map pyLowerChar)))

/-- The claim's step list with the normalization form the code actually
uses: *compatibility*-compose Unicode normalization (NFKC), then the same
steps. -/
def specNormalizeNFKC (s : List Char) : List Char :=
  stripWs (collapseNonAlnum (replaceAmp ((nfkc s).map pyLowerChar)))

/-! ## Definitions used only to state theorems -/

/-- Running maximum of the scores of `names` against `q`, seeded at `b0`
(the loops of `screen_company` compute exactly this, `ofac.py`
lines 858-870). -/
def scoreFold (q : List Char) (b0 : ℚ) (names : List (List Char)) : ℚ :=
  names.foldl (fun m n => max m (tokenSetSimilarity q n)) b0

/-- Hit lists sorted by strictly descending-or-equal score. -/
def SortedDesc (l : List EntityHit) : Prop :=
  l.Pairwise (fun x y => y.best_score ≤ x.best_score)

/-- The contract from `find_longest_match`'s docstring: the returned best
block `(i, j, k)` either is the initial `(alo, blo, 0)` or is a real block
with `alo ≤ i ≤ i + k ≤ ahi` and `blo ≤ j ≤ j + k ≤ bhi`. -/
def BestInv (alo ahi blo bhi : Nat) (t : Nat × Nat × Nat) : Prop :=
  t = (alo, blo, 0) ∨
    (t.2.2 ≠ 0 ∧ alo ≤ t.1 ∧ blo ≤ t.2.1 ∧
      t.1 + t.2.2 ≤ ahi ∧ t.2.1 + t.2.2 ≤ bhi)

/-- Invariant of the run-length table entering row `i`: a nonzero entry at
`j` is a run inside `[blo, bhi)` of length at most `j + 1 - blo` and at
most `i - alo` (runs end on the previous row). -/
def DictInv (alo blo bhi i : Nat) (f : Nat → Nat) : Prop :=
  ∀ j, f j ≠ 0 → blo ≤ j ∧ j < bhi ∧ f j ≤ j + 1 - blo ∧ f j ≤ i - alo

/-- Jaccard similarity of the two normalized strings' token sets, as the
spec words it: intersection size over union size. -/
def jaccardSpec (an bn : List Char) : ℚ :=
  ((tokenSet an ∩ tokenSet bn).card : ℚ) / ((tokenSet an ∪ tokenSet bn).card : ℚ)

/-- Concrete rows and entities used by witnesses and counterexamples. -/
def rowAddrOnly : Row := [("Entity Number", "123"), ("Address", "Main St 7")]

def rowPrim : Row := [("Entity Number", "9"), ("Name", "Acme Corp")]

def entAcmeCorp : EntityRec := ⟨"OFAC-SDN", "1", ["acme corp".toList], [], [], []⟩

def entAcme : EntityRec := ⟨"OFAC-SDN", "2", ["acme".toList], [], [], []⟩

def entTie : EntityRec :=
  ⟨"OFAC-SDN", "3", ["acme corp".toList], ["acme corp".toList], [], []⟩

/-! # Theorems -/

/-! ## Normalization pipeline lemmas -/

theorem isLowerAlnum_not_ws {c : Char} (h : isLowerAlnum c = true) :
    isPyWs c = false := by
  simp only [isLowerAlnum, Bool.or_eq_true, Bool.and_eq_true, decide_eq_true_eq] at h
  simp only [isPyWs, Bool.or_eq_false_iff]
  refine ⟨⟨⟨⟨⟨?_, ?_⟩, ?_⟩, ?_⟩, ?_⟩, ?_⟩ <;>
    · simp only [beq_eq_false_iff_ne, ne_eq]
      intro hc
      subst hc
      rcases h with ⟨h1, h2⟩ | ⟨h1, h2⟩ <;> simp [Char.le_def] at h1 h2

theorem dropWhile_head_false {p : Char → Bool} {l : List Char} {c : Char}
    {cs : List Char} (h : l.dropWhile p = c :: cs) : p c = false := by
  induction l with
  | nil => simp at h
  | cons d ds ih =>
    by_cases hd : p d
    · rw [List.dropWhile_cons_of_pos hd] at h
      exact ih h
    · rw [List.dropWhile_cons_of_neg hd] at h
      cases h
      exact Bool.of_not_eq_true hd

/-- Joint invariant: on `collapseNAGo` output the `\s+` substitution is
the identity (the output never contains two adjacent spaces, and in the
`inRun` state it starts with a non-space). -/
theorem collapseWsGo_collapseNAGo (l : List Char) :
    ∀ bw bn : Bool, bw = false ∨ bn = true →
      collapseWsGo bw (collapseNAGo bn l) = collapseNAGo bn l := by
  induction l with
  | nil => intro bw bn _; simp [collapseNAGo, collapseWsGo]
  | cons c cs ih =>
    intro bw bn hcomp
    by_cases hc : isLowerAlnum c
    · have hw : isPyWs c = false := isLowerAlnum_not_ws hc
      simp only [collapseNAGo, if_pos hc, collapseWsGo, hw, Bool.false_eq_true,
        if_false]
      rw [ih false false (Or.inl rfl)]
    · cases bn
      · have hbw : bw = false := by
          rcases hcomp with h | h
          · exact h
          · exact (Bool.false_ne_true h).elim
        subst hbw
        have h1 : collapseNAGo false (c :: cs) = ' ' :: collapseNAGo true cs := by
          simp [collapseNAGo, hc]
        rw [h1]
        have h2 : collapseWsGo false (' ' :: collapseNAGo true cs) =
            ' ' :: collapseWsGo true (collapseNAGo true cs) := by
          simp [collapseWsGo, show isPyWs ' ' = true from rfl]
        rw [h2, ih true true (Or.inr rfl)]
      · have h1 : collapseNAGo true (c :: cs) = collapseNAGo true cs := by
          simp [collapseNAGo, hc]
        rw [h1]
        exact ih bw true (Or.inr rfl)

/-- The `\s+` substitution of `_normalize` is the identity after the
`[^a-z0-9]+` substitution. -/
theorem collapseWs_collapseNonAlnum (l : List Char) :
    collapseWs (collapseNonAlnum l) = collapseNonAlnum l :=
  collapseWsGo_collapseNAGo l false false (Or.inl rfl)

/-- C2 (amended): the code's `_normalize` performs exactly the claimed
steps with *compatibility*-compose (NFKC) normalization in place of
canonical-compose: the extra `\s+` substitution of the code is the
identity there. -/
theorem claim2_normalize_steps (s : List Char) :
    pyNormalize s = specNormalizeNFKC s := by
  unfold pyNormalize specNormalizeNFKC
  rw [collapseWs_collapseNonAlnum]

/-- C2, counterexample to the claim as stated: on U+2460 (CIRCLED DIGIT
ONE) the code's NFKC step produces `"1"`, while canonical-compose (NFC)
normalization leaves the character, which the `[^a-z0-9]+` collapse then
deletes. -/
theorem claim2_counterexample :
    pyNormalize "①".toList ≠ specNormalizeNFC "①".toList ∧
      pyNormalize "①".toList = ['1'] ∧ specNormalizeNFC "①".toList = [] := by
  refine ⟨?_, by decide, by decide⟩
  decide

/-! ## Bounds on the edit-similarity ratio -/

/-- The total matched size never exceeds either range length. -/
theorem matchTotalF_le (a b : List Char) :
    ∀ fuel alo ahi blo bhi : Nat,
      matchTotalF a b fuel alo ahi blo bhi ≤ min (ahi - alo) (bhi - blo) := by
  intro fuel
  induction fuel with
  | zero => intro alo ahi blo bhi; simp [matchTotalF]
  | succ f ih =>
    intro alo ahi blo bhi
    simp only [matchTotalF]
    split
    · rename_i h
      have h1 := ih alo (findLongestMatch a b alo ahi blo bhi).1 blo
        (findLongestMatch a b alo ahi blo bhi).2.1
      have h2 := ih ((findLongestMatch a b alo ahi blo bhi).1 +
          (findLongestMatch a b alo ahi blo bhi).2.2) ahi
        ((findLongestMatch a b alo ahi blo bhi).2.1 +
          (findLongestMatch a b alo ahi blo bhi).2.2) bhi
      omega
    · omega

/-- The fuel of `matchTotalF` is irrelevant at or above the range
measure: `matchTotal`'s choice of fuel is adequate, so the truncation can
never fire. -/
theorem matchTotalF_congr (a b : List Char) :
    ∀ f g alo ahi blo bhi : Nat, ahi - alo + (bhi - blo) ≤ f →
      ahi - alo + (bhi - blo) ≤ g →
      matchTotalF a b f alo ahi blo bhi = matchTotalF a b g alo ahi blo bhi := by
  intro f
  induction f with
  | zero =>
    intro g alo ahi blo bhi hf hg
    have h1 : ahi - alo = 0 := by omega
    have h2 : bhi - blo = 0 := by omega
    cases g with
    | zero => rfl
    | succ g' =>
      simp only [matchTotalF]
      split
      · rename_i h; omega
      · rfl
  | succ f' ih =>
    intro g alo ahi blo bhi hf hg
    cases g with
    | zero =>
      have h1 : ahi - alo = 0 := by omega
      have h2 : bhi - blo = 0 := by omega
      simp only [matchTotalF]
      split
      · rename_i h; omega
      · rfl
    | succ g' =>
      simp only [matchTotalF]
      split
      · rename_i h
        rw [ih g' alo (findLongestMatch a b alo ahi blo bhi).1 blo
            (findLongestMatch a b alo ahi blo bhi).2.1 (by omega) (by omega),
          ih g' ((findLongestMatch a b alo ahi blo bhi).1 +
              (findLongestMatch a b alo ahi blo bhi).2.2) ahi
            ((findLongestMatch a b alo ahi blo bhi).2.1 +
              (findLongestMatch a b alo ahi blo bhi).2.2) bhi (by omega) (by omega)]
      · rfl

theorem innerLoop_inv {alo ahi blo bhi : Nat} (i : Nat) (j2len : Nat → Nat)
    (hi1 : alo ≤ i) (hi2 : i < ahi) (hd : DictInv alo blo bhi i j2len) :
    ∀ (js : List Nat) (acc : Nat → Nat) (best : Nat × Nat × Nat),
      (∀ j ∈ js, blo ≤ j ∧ j < bhi) →
      DictInv alo blo bhi (i + 1) acc →
      BestInv alo ahi blo bhi best →
      DictInv alo blo bhi (i + 1) (innerLoop i j2len js acc best).1 ∧
        BestInv alo ahi blo bhi (innerLoop i j2len js acc best).2 := by
  intro js
  induction js with
  | nil => intro acc best _ ha hb; exact ⟨ha, hb⟩
  | cons j js ih =>
    intro acc best hjs ha hb
    have hj : blo ≤ j ∧ j < bhi := hjs j (by simp)
    have hkb : (if j = 0 then 0 else j2len (j - 1)) + 1 ≤ j + 1 - blo ∧
        (if j = 0 then 0 else j2len (j - 1)) + 1 ≤ i + 1 - alo := by
      by_cases hj0 : j = 0
      · rw [if_pos hj0]
        omega
      · rw [if_neg hj0]
        by_cases hz : j2len (j - 1) = 0
        · rw [hz]
          omega
        · have := hd (j - 1) hz
          omega
    have hstep : innerLoop i j2len (j :: js) acc best =
        innerLoop i j2len js
          (fun j' => if j' = j then (if j = 0 then 0 else j2len (j - 1)) + 1
            else acc j')
          (if best.2.2 < (if j = 0 then 0 else j2len (j - 1)) + 1 then
            (i + 1 - ((if j = 0 then 0 else j2len (j - 1)) + 1),
              j + 1 - ((if j = 0 then 0 else j2len (j - 1)) + 1),
              (if j = 0 then 0 else j2len (j - 1)) + 1)
          else best) := rfl
    rw [hstep]
    apply ih
    · exact fun j' hj' => hjs j' (by simp [hj'])
    · intro j' hj'
      dsimp only at hj' ⊢
      by_cases hjj : j' = j
      · have hval : (if j' = j then (if j = 0 then 0 else j2len (j - 1)) + 1
            else acc j') = (if j = 0 then 0 else j2len (j - 1)) + 1 :=
          if_pos hjj
        rw [hval]
        subst hjj
        omega
      · have hval : (if j' = j then (if j = 0 then 0 else j2len (j - 1)) + 1
            else acc j') = acc j' := if_neg hjj
        rw [hval] at hj' ⊢
        exact ha j' hj'
    · by_cases hlt : best.2.2 < (if j = 0 then 0 else j2len (j - 1)) + 1
      · rw [if_pos hlt]
        refine Or.inr ⟨?_, ?_, ?_, ?_, ?_⟩
        · show (if j = 0 then 0 else j2len (j - 1)) + 1 ≠ 0
          omega
        · show alo ≤ i + 1 - ((if j = 0 then 0 else j2len (j - 1)) + 1)
          omega
        · show blo ≤ j + 1 - ((if j = 0 then 0 else j2len (j - 1)) + 1)
          omega
        · show i + 1 - ((if j = 0 then 0 else j2len (j - 1)) + 1) +
            ((if j = 0 then 0 else j2len (j - 1)) + 1) ≤ ahi
          omega
        · show j + 1 - ((if j = 0 then 0 else j2len (j - 1)) + 1) +
            ((if j = 0 then 0 else j2len (j - 1)) + 1) ≤ bhi
          omega
      · rw [if_neg hlt]
        exact hb

theorem outerLoop_inv (a b : List Char) (alo ahi blo bhi : Nat) :
    ∀ (n i : Nat) (f : Nat → Nat) (best : Nat × Nat × Nat),
      alo ≤ i → i + n ≤ ahi → DictInv alo blo bhi i f →
      BestInv alo ahi blo bhi best →
      BestInv alo ahi blo bhi
        (outerLoop a b blo bhi (List.range' i n) f best) := by
  intro n
  induction n with
  | zero => intro i f best _ _ _ hb; exact hb
  | succ n ih =>
    intro i f best hi1 hi2 hd hb
    have hr : List.range' i (n + 1) = i :: List.range' (i + 1) n := rfl
    rw [hr]
    have hjs : ∀ j ∈ (b2j b (a.getD i ' ')).filter
        (fun j => blo ≤ j && j < bhi), blo ≤ j ∧ j < bhi := by
      intro j hmem
      have := List.of_mem_filter hmem
      simp only [Bool.and_eq_true, decide_eq_true_eq] at this
      exact this
    have hinner := innerLoop_inv i f hi1 (by omega) hd
      ((b2j b (a.getD i ' ')).filter (fun j => blo ≤ j && j < bhi))
      (fun _ => 0) best hjs (fun j h => absurd rfl h) hb
    exact ih (i + 1) _ _ (by omega) (by omega) hinner.1 hinner.2

theorem extendLeft_inv (a b : List Char) (alo ahi blo bhi : Nat) :
    ∀ i j k : Nat, BestInv alo ahi blo bhi (i, j, k) →
      BestInv alo ahi blo bhi (extendLeft a b alo blo i j k) := by
  intro i
  induction i with
  | zero => intro j k hb; exact hb
  | succ i ih =>
    intro j k hb
    rw [extendLeft]
    by_cases hg : alo < i + 1 ∧ blo < j ∧ a.getD i ' ' = b.getD (j - 1) ' '
    · rw [if_pos hg]
      apply ih
      rcases hb with hdeg | hstrong
      · have h1 : i + 1 = alo := (Prod.mk.injEq _ _ _ _ ▸ hdeg).1
        omega
      · have hs : k ≠ 0 ∧ alo ≤ i + 1 ∧ blo ≤ j ∧ i + 1 + k ≤ ahi ∧
            j + k ≤ bhi := hstrong
        refine Or.inr ⟨?_, ?_, ?_, ?_, ?_⟩
        · show k + 1 ≠ 0
          omega
        · show alo ≤ i
          omega
        · show blo ≤ j - 1
          omega
        · show i + (k + 1) ≤ ahi
          omega
        · show j - 1 + (k + 1) ≤ bhi
          omega
    · rw [if_neg hg]
      exact hb

theorem extendRightF_inv (a b : List Char) (alo ahi blo bhi : Nat) :
    ∀ (fuel i j k : Nat), BestInv alo ahi blo bhi (i, j, k) →
      BestInv alo ahi blo bhi (extendRightF a b ahi bhi fuel i j k) := by
  intro fuel
  induction fuel with
  | zero => intro i j k hb; exact hb
  | succ fuel ih =>
    intro i j k hb
    rw [extendRightF]
    by_cases hg : i + k < ahi ∧ j + k < bhi ∧ a.getD (i + k) ' ' = b.getD (j + k) ' '
    · rw [if_pos hg]
      apply ih
      rcases hb with hdeg | hstrong
      · have h1 : i = alo ∧ j = blo ∧ k = 0 := by
          refine ⟨(Prod.mk.injEq _ _ _ _ ▸ hdeg).1, ?_, ?_⟩
          · exact (Prod.mk.injEq _ _ _ _ ▸ (Prod.mk.injEq _ _ _ _ ▸ hdeg).2).1
          · exact (Prod.mk.injEq _ _ _ _ ▸ (Prod.mk.injEq _ _ _ _ ▸ hdeg).2).2
        refine Or.inr ⟨?_, ?_, ?_, ?_, ?_⟩
        · show k + 1 ≠ 0
          omega
        · show alo ≤ i
          omega
        · show blo ≤ j
          omega
        · show i + (k + 1) ≤ ahi
          omega
        · show j + (k + 1) ≤ bhi
          omega
      · have hs : k ≠ 0 ∧ alo ≤ i ∧ blo ≤ j ∧ i + k ≤ ahi ∧ j + k ≤ bhi :=
          hstrong
        refine Or.inr ⟨?_, ?_, ?_, ?_, ?_⟩
        · show k + 1 ≠ 0
          omega
        · show alo ≤ i
          omega
        · show blo ≤ j
          omega
        · show i + (k + 1) ≤ ahi
          omega
        · show j + (k + 1) ≤ bhi
          omega
    · rw [if_neg hg]
      exact hb

/-- The source `find_longest_match` satisfies its documented contract: whenever a
nonempty block is returned, it lies inside the requested ranges.  Hence
the guard in `matchTotalF` is exactly Python's `if k:`
(`matchTotalF_guard` below). -/
theorem findLongestMatch_inv (a b : List Char) (alo ahi blo bhi : Nat)
    (h : (findLongestMatch a b alo ahi blo bhi).2.2 ≠ 0) :
    alo ≤ (findLongestMatch a b alo ahi blo bhi).1 ∧
    (findLongestMatch a b alo ahi blo bhi).1 +
      (findLongestMatch a b alo ahi blo bhi).2.2 ≤ ahi ∧
    blo ≤ (findLongestMatch a b alo ahi blo bhi).2.1 ∧
    (findLongestMatch a b alo ahi blo bhi).2.1 +
      (findLongestMatch a b alo ahi blo bhi).2.2 ≤ bhi := by
  have hm : BestInv alo ahi blo bhi
      (outerLoop a b blo bhi (List.range' alo (ahi - alo)) (fun _ => 0)
        (alo, blo, 0)) := by
    by_cases halo : alo ≤ ahi
    · exact outerLoop_inv a b alo ahi blo bhi (ahi - alo) alo _ _
        (le_refl alo) (by omega) (fun j hj => absurd rfl hj) (Or.inl rfl)
    · have h0 : ahi - alo = 0 := by omega
      rw [h0]
      exact Or.inl rfl
  have hfin : BestInv alo ahi blo bhi (findLongestMatch a b alo ahi blo bhi) := by
    unfold findLongestMatch
    exact extendRightF_inv a b alo ahi blo bhi _ _ _ _
      (extendLeft_inv a b alo ahi blo bhi _ _ _ hm)
  rcases hfin with hdeg | hstrong
  · rw [hdeg] at h
    exact absurd rfl h
  · exact ⟨hstrong.2.1, hstrong.2.2.2.1, hstrong.2.2.1, hstrong.2.2.2.2⟩

/-- The range guard of `matchTotalF` is implied by
`findLongestMatch_inv`, so the definition is exactly the source's
`if k:` recursion. -/
theorem matchTotalF_guard (a b : List Char) (fuel alo ahi blo bhi : Nat) :
    matchTotalF a b (fuel + 1) alo ahi blo bhi =
      if (findLongestMatch a b alo ahi blo bhi).2.2 = 0 then 0
      else (findLongestMatch a b alo ahi blo bhi).2.2 +
        matchTotalF a b fuel alo (findLongestMatch a b alo ahi blo bhi).1 blo
          (findLongestMatch a b alo ahi blo bhi).2.1 +
        matchTotalF a b fuel
          ((findLongestMatch a b alo ahi blo bhi).1 +
            (findLongestMatch a b alo ahi blo bhi).2.2) ahi
          ((findLongestMatch a b alo ahi blo bhi).2.1 +
            (findLongestMatch a b alo ahi blo bhi).2.2) bhi := by
  simp only [matchTotalF]
  by_cases hk : (findLongestMatch a b alo ahi blo bhi).2.2 = 0
  · rw [if_neg (fun hc => hc.1 hk), if_pos hk]
  · obtain ⟨h1, h2, h3, h4⟩ := findLongestMatch_inv a b alo ahi blo bhi hk
    rw [if_pos ⟨hk, h1, h2, h3, h4⟩, if_neg hk]

theorem smRatioQ_nonneg (a b : List Char) : 0 ≤ smRatioQ a b := by
  unfold smRatioQ
  split
  · norm_num
  · positivity

theorem smRatioQ_le_one (a b : List Char) : smRatioQ a b ≤ 1 := by
  unfold smRatioQ
  split
  · norm_num
  · rename_i h
    have hM : matchTotal a b 0 a.length 0 b.length ≤
        min (a.length - 0) (b.length - 0) := matchTotalF_le a b _ 0 a.length 0 b.length
    have hpos : (0 : ℚ) < (a.length : ℚ) + (b.length : ℚ) := by
      have h0 : 0 < a.length + b.length := Nat.pos_of_ne_zero h
      exact_mod_cast h0
    rw [div_le_one hpos]
    have : 2 * matchTotal a b 0 a.length 0 b.length ≤ a.length + b.length := by omega
    exact_mod_cast this

/-! ## Token sets of nonempty normalized strings -/

theorem pySplitGo_ne_nil (l : List Char) :
    ∀ acc : List Char, acc ≠ [] → pySplitGo acc l ≠ [] := by
  induction l with
  | nil => intro acc hacc; simp [pySplitGo, hacc]
  | cons c cs ih =>
    intro acc hacc
    by_cases hc : isPyWs c
    · simp [pySplitGo, hc, hacc]
    · simp only [pySplitGo, hc, Bool.false_eq_true, if_false]
      exact ih (c :: acc) (by simp)

theorem stripWs_prefix (l : List Char) :
    stripWs l <+: l.dropWhile isPyWs := by
  have h := (List.dropWhile_suffix (l := (l.dropWhile isPyWs).reverse) isPyWs).reverse
  rw [List.reverse_reverse] at h
  exact h

theorem stripWs_head_not_ws {l : List Char} {c : Char} {cs : List Char}
    (h : stripWs l = c :: cs) : isPyWs c = false := by
  have hp := stripWs_prefix l
  rw [h] at hp
  rcases hp with ⟨t, ht⟩
  exact dropWhile_head_false ht.symm

theorem pySplit_stripWs_ne_nil {l : List Char} {c : Char} {cs : List Char}
    (h : stripWs l = c :: cs) : pySplit (stripWs l) ≠ [] := by
  have hc := stripWs_head_not_ws h
  rw [h]
  simp only [pySplit, pySplitGo, hc, Bool.false_eq_true, if_false]
  exact pySplitGo_ne_nil cs [c] (by simp)

/-- Every `pyNormalize` output is a `stripWs` image, so a nonempty
normalization has at least one token. -/
theorem pySplit_pyNormalize_ne_nil {s : List Char} (h : pyNormalize s ≠ []) :
    pySplit (pyNormalize s) ≠ [] := by
  unfold pyNormalize at *
  cases hs : stripWs (collapseWs (collapseNonAlnum (replaceAmp
      ((nfkc s).map pyLowerChar)))) with
  | nil => exact absurd hs h
  | cons c cs => rw [← hs]; exact pySplit_stripWs_ne_nil hs

theorem tokenSet_card_pos {s : List Char} (h : pyNormalize s ≠ []) :
    0 < (tokenSet (pyNormalize s)).card := by
  have := pySplit_pyNormalize_ne_nil h
  cases hs : pySplit (pyNormalize s) with
  | nil => exact absurd hs this
  | cons t ts =>
    apply Finset.card_pos.mpr
    exact ⟨t, by simp [tokenSet, hs]⟩

/-! ## The scorer's closed forms and bounds -/

theorem pyMax_eq (x y : ℚ) : pyMax x y = max x y := by
  unfold pyMax; rw [max_def]

theorem pyMin_eq (x y : ℚ) : pyMin x y = min x y := by
  unfold pyMin; rw [min_def]

theorem jaccardSpec_nonneg (an bn : List Char) : 0 ≤ jaccardSpec an bn := by
  unfold jaccardSpec; positivity

theorem jaccardSpec_le_one {an bn : List Char}
    (h : 0 < (tokenSet an ∪ tokenSet bn).card) : jaccardSpec an bn ≤ 1 := by
  unfold jaccardSpec
  rw [div_le_one (by exact_mod_cast h)]
  have := Finset.card_le_card (Finset.inter_subset_union (s := tokenSet an) (t := tokenSet bn))
  exact_mod_cast this

theorem jaccardSpec_comm (an bn : List Char) :
    jaccardSpec an bn = jaccardSpec bn an := by
  unfold jaccardSpec
  rw [Finset.inter_comm, Finset.union_comm]

theorem tokenSetSimilarity_zero_of_empty {a b : List Char}
    (h : pyNormalize a = [] ∨ pyNormalize b = []) :
    tokenSetSimilarity a b = 0 := by
  unfold tokenSetSimilarity
  rcases h with h | h <;> rw [if_pos (by rw [h]; simp)]

/-- With both normalizations nonempty, the score is the claimed clamped
combination, with the *true* union size as the Jaccard denominator (the
code's `max(1, ...)` guard is inert because the union is nonempty). -/
theorem tokenSetSimilarity_of_ne {a b : List Char} (ha : pyNormalize a ≠ [])
    (hb : pyNormalize b ≠ []) :
    tokenSetSimilarity a b =
      max 0 (min 100 ((80 / 100 * jaccardSpec (pyNormalize a) (pyNormalize b) +
        20 / 100 * smRatioQ (pyNormalize a) (pyNormalize b)) * 100)) := by
  unfold tokenSetSimilarity
  rw [if_neg (by simp [List.isEmpty_iff, ha, hb])]
  have hu : 0 < (tokenSet (pyNormalize a) ∪ tokenSet (pyNormalize b)).card :=
    lt_of_lt_of_le (tokenSet_card_pos ha)
      (Finset.card_le_card Finset.subset_union_left)
  have hmax : Nat.max 1 (tokenSet (pyNormalize a) ∪ tokenSet (pyNormalize b)).card =
      (tokenSet (pyNormalize a) ∪ tokenSet (pyNormalize b)).card :=
    Nat.max_eq_right (by omega)
  rw [hmax, pyMax_eq, pyMin_eq]
  rfl

theorem union_card_pos {a b : List Char} (ha : pyNormalize a ≠ []) :
    0 < (tokenSet (pyNormalize a) ∪ tokenSet (pyNormalize b)).card :=
  lt_of_lt_of_le (tokenSet_card_pos ha)
    (Finset.card_le_card Finset.subset_union_left)

/-- The combination is already inside `[0, 100]`, so the clamp is inert. -/
theorem tokenSetSimilarity_linear {a b : List Char} (ha : pyNormalize a ≠ [])
    (hb : pyNormalize b ≠ []) :
    tokenSetSimilarity a b =
      (80 / 100 * jaccardSpec (pyNormalize a) (pyNormalize b) +
        20 / 100 * smRatioQ (pyNormalize a) (pyNormalize b)) * 100 := by
  rw [tokenSetSimilarity_of_ne ha hb]
  have hj0 := jaccardSpec_nonneg (pyNormalize a) (pyNormalize b)
  have hj1 := jaccardSpec_le_one (union_card_pos ha (b := b))
  have hr0 := smRatioQ_nonneg (pyNormalize a) (pyNormalize b)
  have hr1 := smRatioQ_le_one (pyNormalize a) (pyNormalize b)
  rw [min_eq_right (by nlinarith), max_eq_right (by nlinarith)]

theorem le_pyMax_left (x y : ℚ) : x ≤ pyMax x y := by
  unfold pyMax
  split
  · assumption
  · exact le_refl x

theorem pyMax_le {x y z : ℚ} (hx : x ≤ z) (hy : y ≤ z) : pyMax x y ≤ z := by
  unfold pyMax
  split
  · exact hy
  · exact hx

theorem pyMin_le_left (x y : ℚ) : pyMin x y ≤ x := by
  unfold pyMin
  split
  · exact le_refl x
  · rename_i h; exact (lt_of_not_le h).le

theorem tokenSetSimilarity_nonneg (a b : List Char) :
    0 ≤ tokenSetSimilarity a b := by
  unfold tokenSetSimilarity
  split
  · norm_num
  · exact le_pyMax_left 0 _

theorem tokenSetSimilarity_le_100 (a b : List Char) :
    tokenSetSimilarity a b ≤ 100 := by
  unfold tokenSetSimilarity
  split
  · norm_num
  · exact pyMax_le (by norm_num) (pyMin_le_left 100 _)

/-- C1: for every pair of strings, the score is `0` if either string
normalizes to empty; otherwise it is
`100 * (0.80 * J + 0.20 * R)` clamped to `[0, 100]`, with `J` the Jaccard
similarity `|A ∩ B| / |A ∪ B|` of the normalized strings' whitespace-split
token sets and `R` the whole-string edit-similarity ratio, which lies in
`[0, 1]`; in particular the score always lies in `[0, 100]`. -/
theorem claim1_score_formula (a b : List Char) :
    (0 ≤ tokenSetSimilarity a b ∧ tokenSetSimilarity a b ≤ 100) ∧
    (pyNormalize a = [] ∨ pyNormalize b = [] → tokenSetSimilarity a b = 0) ∧
    (pyNormalize a ≠ [] → pyNormalize b ≠ [] →
      (0 ≤ smRatioQ (pyNormalize a) (pyNormalize b) ∧
        smRatioQ (pyNormalize a) (pyNormalize b) ≤ 1) ∧
      tokenSetSimilarity a b =
        max 0 (min 100 (100 * (80 / 100 * jaccardSpec (pyNormalize a) (pyNormalize b) +
          20 / 100 * smRatioQ (pyNormalize a) (pyNormalize b))))) := by
  refine ⟨⟨tokenSetSimilarity_nonneg a b, tokenSetSimilarity_le_100 a b⟩,
    tokenSetSimilarity_zero_of_empty, ?_⟩
  intro ha hb
  refine ⟨⟨smRatioQ_nonneg _ _, smRatioQ_le_one _ _⟩, ?_⟩
  rw [tokenSetSimilarity_of_ne ha hb, mul_comm _ (100 : ℚ)]

/-- C1, witness: `score("acme corp", "acme")` computed through the
theorem at a concrete input. -/
theorem claim1_score_formula_witness :
    (0 ≤ tokenSetSimilarity "acme corp".toList "acme".toList ∧
      tokenSetSimilarity "acme corp".toList "acme".toList ≤ 100) ∧
    tokenSetSimilarity "acme corp".toList "acme".toList =
      max 0 (min 100 (100 * (80 / 100 *
        jaccardSpec (pyNormalize "acme corp".toList) (pyNormalize "acme".toList) +
        20 / 100 * smRatioQ (pyNormalize "acme corp".toList)
          (pyNormalize "acme".toList)))) := by
  have h := claim1_score_formula "acme corp".toList "acme".toList
  exact ⟨h.1, (h.2.2 (by decide) (by decide)).2⟩

/-- C3, counterexample: the scorer is *not* symmetric.  `difflib`'s
`SequenceMatcher.ratio` is order-sensitive: for the already-normalized
strings `"ab"` and `"bacb"` it matches 2 characters one way (blocks `"a"`
then `"b"`) but only 1 the other way, so the scores differ
(`40/3 ≈ 13.33` versus `20/3 ≈ 6.67`). -/
theorem claim3_counterexample :
    tokenSetSimilarity "ab".toList "bacb".toList ≠
      tokenSetSimilarity "bacb".toList "ab".toList ∧
    tokenSetSimilarity "ab".toList "bacb".toList = 40 / 3 ∧
    tokenSetSimilarity "bacb".toList "ab".toList = 20 / 3 := by
  refine ⟨?_, ?_, ?_⟩ <;> with_unfolding_all decide

/-- C3 (amended): the token-set (Jaccard) component of the score is
symmetric, and the normalization treats both arguments alike, but the
edit-ratio term is computed by the order-sensitive
`difflib.SequenceMatcher`, so the two orders of `score` can differ — by at
most the full weight of that term, 20 points. -/
theorem claim3_symmetry_bound (a b : List Char) :
    jaccardSpec (pyNormalize a) (pyNormalize b) =
      jaccardSpec (pyNormalize b) (pyNormalize a) ∧
    |tokenSetSimilarity a b - tokenSetSimilarity b a| ≤ 20 := by
  refine ⟨jaccardSpec_comm _ _, ?_⟩
  by_cases ha : pyNormalize a = []
  · rw [tokenSetSimilarity_zero_of_empty (Or.inl ha),
      tokenSetSimilarity_zero_of_empty (Or.inr ha)]
    norm_num
  by_cases hb : pyNormalize b = []
  · rw [tokenSetSimilarity_zero_of_empty (Or.inr hb),
      tokenSetSimilarity_zero_of_empty (Or.inl hb)]
    norm_num
  rw [tokenSetSimilarity_linear ha hb, tokenSetSimilarity_linear hb ha,
    jaccardSpec_comm (pyNormalize b) (pyNormalize a)]
  have hr0 := smRatioQ_nonneg (pyNormalize a) (pyNormalize b)
  have hr1 := smRatioQ_le_one (pyNormalize a) (pyNormalize b)
  have hs0 := smRatioQ_nonneg (pyNormalize b) (pyNormalize a)
  have hs1 := smRatioQ_le_one (pyNormalize b) (pyNormalize a)
  rw [abs_le]
  constructor <;> nlinarith

/-! ## The evidence loops of `screen_company` (claim C4) -/

theorem bestAgainst_cons (f : String) (q n : List Char) (ns : List (List Char))
    (b : MatchEvidence) :
    bestAgainst f q (n :: ns) b =
      bestAgainst f q ns
        (if b.score < tokenSetSimilarity q n
          then ⟨f, n, tokenSetSimilarity q n⟩ else b) := rfl

theorem scoreFold_cons (q n : List Char) (ns : List (List Char)) (b0 : ℚ) :
    scoreFold q b0 (n :: ns) = scoreFold q (max b0 (tokenSetSimilarity q n)) ns := rfl

theorem bestAgainst_score (f : String) (q : List Char) (names : List (List Char)) :
    ∀ b : MatchEvidence, (bestAgainst f q names b).score = scoreFold q b.score names := by
  induction names with
  | nil => intro b; rfl
  | cons n ns ih =>
    intro b
    rw [bestAgainst_cons, scoreFold_cons, ih]
    congr 1
    by_cases h : b.score < tokenSetSimilarity q n
    · rw [if_pos h]
      exact (max_eq_right h.le).symm
    · rw [if_neg h]
      exact (max_eq_left (le_of_not_lt h)).symm

theorem bestAgainst_field_cases (f : String) (q : List Char)
    (names : List (List Char)) :
    ∀ b : MatchEvidence, (bestAgainst f q names b).field = b.field ∨
      (bestAgainst f q names b).field = f := by
  induction names with
  | nil => intro b; exact Or.inl rfl
  | cons n ns ih =>
    intro b
    rw [bestAgainst_cons]
    by_cases h : b.score < tokenSetSimilarity q n
    · rw [if_pos h]
      rcases ih ⟨f, n, tokenSetSimilarity q n⟩ with h' | h'
      · exact Or.inr h'
      · exact Or.inr h'
    · rw [if_neg h]
      exact ih b

theorem bestAgainst_of_le (f : String) (q : List Char) (names : List (List Char)) :
    ∀ b : MatchEvidence, (∀ n ∈ names, tokenSetSimilarity q n ≤ b.score) →
      bestAgainst f q names b = b := by
  induction names with
  | nil => intro b _; rfl
  | cons n ns ih =>
    intro b h
    rw [bestAgainst_cons, if_neg (not_lt.mpr (h n (by simp)))]
    exact ih b (fun m hm => h m (by simp [hm]))

theorem bestAgainst_field_of_lt (f : String) (q : List Char)
    (names : List (List Char)) :
    ∀ b : MatchEvidence, (∃ n ∈ names, b.score < tokenSetSimilarity q n) →
      (bestAgainst f q names b).field = f := by
  induction names with
  | nil => intro b h; simp at h
  | cons n ns ih =>
    intro b h
    rw [bestAgainst_cons]
    by_cases hn : b.score < tokenSetSimilarity q n
    · rw [if_pos hn]
      rcases bestAgainst_field_cases f q ns ⟨f, n, tokenSetSimilarity q n⟩ with h' | h'
      · exact h'
      · exact h'
    · rw [if_neg hn]
      rcases h with ⟨m, hm, hlt⟩
      rcases List.mem_cons.mp hm with rfl | hm'
      · exact absurd hlt hn
      · exact ih b ⟨m, hm', hlt⟩

theorem le_scoreFold (q : List Char) (names : List (List Char)) :
    ∀ b0 : ℚ, b0 ≤ scoreFold q b0 names := by
  induction names with
  | nil => intro b0; exact le_refl b0
  | cons n ns ih =>
    intro b0
    rw [scoreFold_cons]
    exact le_trans (le_max_left _ _) (ih _)

theorem scoreFold_ge_elem (q : List Char) (names : List (List Char)) :
    ∀ (b0 : ℚ) (n : List Char), n ∈ names →
      tokenSetSimilarity q n ≤ scoreFold q b0 names := by
  induction names with
  | nil => intro b0 n hn; simp at hn
  | cons m ms ih =>
    intro b0 n hn
    rw [scoreFold_cons]
    rcases List.mem_cons.mp hn with rfl | hn'
    · exact le_trans (le_max_right _ _) (le_scoreFold q ms _)
    · exact ih _ n hn'

theorem scoreFold_cases (q : List Char) (names : List (List Char)) :
    ∀ b0 : ℚ, scoreFold q b0 names = b0 ∨
      ∃ n ∈ names, scoreFold q b0 names = tokenSetSimilarity q n := by
  induction names with
  | nil => intro b0; exact Or.inl rfl
  | cons n ns ih =>
    intro b0
    rw [scoreFold_cons]
    rcases ih (max b0 (tokenSetSimilarity q n)) with h | ⟨m, hm, hme⟩
    · rcases max_cases b0 (tokenSetSimilarity q n) with ⟨he, _⟩ | ⟨he, _⟩
      · exact Or.inl (by rw [h, he])
      · exact Or.inr ⟨n, by simp, by rw [h, he]⟩
    · exact Or.inr ⟨m, by simp [hm], hme⟩

theorem scoreFold_lt_exists {q : List Char} {names : List (List Char)}
    {b0 x : ℚ} (h : x < scoreFold q b0 names) :
    x < b0 ∨ ∃ n ∈ names, x < tokenSetSimilarity q n := by
  rcases scoreFold_cases q names b0 with he | ⟨n, hn, he⟩
  · exact Or.inl (he ▸ h)
  · exact Or.inr ⟨n, hn, he ▸ h⟩

/-- C4: the best evidence reported for an entity is the maximum score over
all its primary and alias names (every name's score is dominated, and the
maximum is attained when the entity has any name; with no names the seed
score `0` with field `primary` remains); the evidence field is `primary`
exactly when no alias scores strictly above every primary (primaries are
tried first, an alias replaces only on strictly greater score, so
primary/alias ties report `primary`). -/
theorem claim4_best_evidence (q : List Char) (e : EntityRec) :
    (bestEvidence q e).score = scoreFold q 0 (e.primary ++ e.aliases) ∧
    (∀ n ∈ e.primary ++ e.aliases,
      tokenSetSimilarity q n ≤ (bestEvidence q e).score) ∧
    (e.primary ++ e.aliases ≠ [] →
      ∃ n ∈ e.primary ++ e.aliases,
        (bestEvidence q e).score = tokenSetSimilarity q n) ∧
    ((bestEvidence q e).field = "primary" ↔
      scoreFold q 0 e.aliases ≤ scoreFold q 0 e.primary) ∧
    ((bestEvidence q e).field = "alias" ↔
      scoreFold q 0 e.primary < scoreFold q 0 e.aliases) := by
  have hb1s : (bestAgainst "primary" q e.primary ⟨"primary", [], 0⟩).score =
      scoreFold q 0 e.primary := bestAgainst_score _ _ _ _
  have hb1f : (bestAgainst "primary" q e.primary ⟨"primary", [], 0⟩).field =
      "primary" := by
    rcases bestAgainst_field_cases "primary" q e.primary ⟨"primary", [], 0⟩ with h | h
    · exact h
    · exact h
  have hscore : (bestEvidence q e).score = scoreFold q 0 (e.primary ++ e.aliases) := by
    unfold bestEvidence
    rw [bestAgainst_score, hb1s]
    unfold scoreFold
    rw [List.foldl_append]
  have hmp0 : (0 : ℚ) ≤ scoreFold q 0 e.primary := le_scoreFold q e.primary 0
  have hprim : (bestEvidence q e).field = "primary" ↔
      scoreFold q 0 e.aliases ≤ scoreFold q 0 e.primary := by
    constructor
    · intro hf
      by_contra hno
      have hlt : scoreFold q 0 e.primary < scoreFold q 0 e.aliases :=
        lt_of_not_le hno
      rcases scoreFold_lt_exists hlt with h0 | ⟨n, hn, hlt'⟩
      · exact absurd h0 (not_lt.mpr hmp0)
      · have : (bestEvidence q e).field = "alias" := by
          unfold bestEvidence
          exact bestAgainst_field_of_lt "alias" q e.aliases _
            ⟨n, hn, by rw [hb1s]; exact hlt'⟩
        rw [this] at hf
        exact absurd hf (by decide)
    · intro hle
      unfold bestEvidence
      rw [bestAgainst_of_le "alias" q e.aliases _
        (fun n hn => by
          rw [hb1s]
          exact le_trans (scoreFold_ge_elem q e.aliases 0 n hn) hle)]
      exact hb1f
  refine ⟨hscore, ?_, ?_, hprim, ?_⟩
  · intro n hn
    rw [hscore]
    exact scoreFold_ge_elem q (e.primary ++ e.aliases) 0 n hn
  · intro hne
    rcases scoreFold_cases q (e.primary ++ e.aliases) 0 with h0 | ⟨n, hn, he⟩
    · cases hl : e.primary ++ e.aliases with
      | nil => exact absurd hl hne
      | cons n0 ns =>
        refine ⟨n0, by simp, ?_⟩
        have h1 : tokenSetSimilarity q n0 ≤ (bestEvidence q e).score := by
          rw [hscore]
          exact scoreFold_ge_elem q _ 0 n0 (by rw [hl]; simp)
        have h2 : (bestEvidence q e).score = 0 := by rw [hscore, h0]
        have h3 : 0 ≤ tokenSetSimilarity q n0 := tokenSetSimilarity_nonneg q n0
        rw [h2]
        linarith [h1, h2 ▸ h1]
    · exact ⟨n, hn, by rw [hscore, he]⟩
  · constructor
    · intro hf
      by_contra hno
      have := hprim.mpr (not_lt.mp hno)
      rw [hf] at this
      exact absurd this (by decide)
    · intro hlt
      rcases scoreFold_lt_exists hlt with h0 | ⟨n, hn, hlt'⟩
      · exact absurd h0 (not_lt.mpr hmp0)
      · unfold bestEvidence
        exact bestAgainst_field_of_lt "alias" q e.aliases _
          ⟨n, hn, by rw [hb1s]; exact hlt'⟩

/-- C4, witness: an entity whose primary name and alias both equal the
query scores 100 on both, and the reported field is the tie-broken
`primary`. -/
theorem claim4_best_evidence_witness :
    (bestEvidence "acme corp".toList entTie).field = "primary" ∧
    (bestEvidence "acme corp".toList entTie).score =
      scoreFold "acme corp".toList 0 (entTie.primary ++ entTie.aliases) ∧
    ∃ n ∈ entTie.primary ++ entTie.aliases,
      (bestEvidence "acme corp".toList entTie).score =
        tokenSetSimilarity "acme corp".toList n := by
  have h := claim4_best_evidence "acme corp".toList entTie
  exact ⟨h.2.2.2.1.mpr (by with_unfolding_all decide), h.1, h.2.2.1 (by decide)⟩

/-! ## The stable descending sort of `screen_company` -/

theorem insertLe_perm (le : α → α → Bool) (x : α) :
    ∀ l : List α, (insertLe le x l).Perm (x :: l) := by
  intro l
  induction l with
  | nil => exact List.Perm.refl _
  | cons y ys ih =>
    unfold insertLe
    by_cases h : le x y
    · rw [if_pos h]
    · rw [if_neg h]
      exact (ih.cons y).trans (List.Perm.swap x y ys)

theorem sortLe_perm (le : α → α → Bool) :
    ∀ l : List α, (sortLe le l).Perm l := by
  intro l
  induction l with
  | nil => exact List.Perm.refl _
  | cons x xs ih =>
    unfold sortLe
    exact (insertLe_perm le x (sortLe le xs)).trans (ih.cons x)

theorem hitGe_false_lt {x y : EntityHit} (h : hitGe x y = false) :
    x.best_score < y.best_score := by
  unfold hitGe at h
  exact lt_of_not_le (of_decide_eq_false h)

theorem insertLe_sorted (x : EntityHit) :
    ∀ l : List EntityHit, SortedDesc l → SortedDesc (insertLe hitGe x l) := by
  intro l
  induction l with
  | nil => intro _; exact List.pairwise_singleton _ x
  | cons y ys ih =>
    intro h
    unfold insertLe
    by_cases hxy : hitGe x y
    · rw [if_pos hxy]
      have hxy' : y.best_score ≤ x.best_score := of_decide_eq_true hxy
      exact List.Pairwise.cons
        (fun z hz => by
          rcases List.mem_cons.mp hz with rfl | hz'
          · exact hxy'
          · exact le_trans (List.rel_of_pairwise_cons h hz') hxy')
        h
    · rw [if_neg hxy]
      have hxy2 : hitGe x y = false := by simp only [Bool.not_eq_true] at hxy; exact hxy
      have hyx : x.best_score ≤ y.best_score := (hitGe_false_lt hxy2).le
      exact List.Pairwise.cons
        (fun z hz => by
          have hz' : z ∈ x :: ys := (insertLe_perm hitGe x ys).mem_iff.mp hz
          rcases List.mem_cons.mp hz' with rfl | hz''
          · exact hyx
          · exact List.rel_of_pairwise_cons h hz'')
        (ih (List.pairwise_cons.mp h).2)

theorem sortLe_sorted : ∀ l : List EntityHit, SortedDesc (sortLe hitGe l) := by
  intro l
  induction l with
  | nil => exact List.Pairwise.nil
  | cons x xs ih => exact insertLe_sorted x (sortLe hitGe xs) ih

theorem insertLe_filter_of_false (le : α → α → Bool) (p : α → Bool) (x : α)
    (hx : p x = false) :
    ∀ l : List α, (insertLe le x l).filter p = l.filter p := by
  intro l
  induction l with
  | nil => simp [insertLe, hx]
  | cons y ys ih =>
    unfold insertLe
    by_cases h : le x y
    · rw [if_pos h]
      simp [List.filter_cons, hx]
    · rw [if_neg h]
      by_cases hy : p y <;> simp [List.filter_cons, hy, ih]

theorem insertLe_filter_of_true (p : EntityHit → Bool) (x : EntityHit)
    (hx : p x = true)
    (hskip : ∀ y : EntityHit, hitGe x y = false → p y = false) :
    ∀ l : List EntityHit,
      (insertLe hitGe x l).filter p = x :: l.filter p := by
  intro l
  induction l with
  | nil => simp [insertLe, hx]
  | cons y ys ih =>
    unfold insertLe
    by_cases h : hitGe x y
    · rw [if_pos h]
      simp [List.filter_cons, hx]
    · rw [if_neg h]
      have hy : p y = false := hskip y (by simp only [Bool.not_eq_true] at h; exact h)
      simp [List.filter_cons, hy, ih]

/-- Stability of the ranking sort: for every score value, the hits of that
exact score appear in the sorted list in their original (index insertion)
order. -/
theorem sortLe_stable (s : ℚ) :
    ∀ l : List EntityHit,
      (sortLe hitGe l).filter (fun h => decide (h.best_score = s)) =
        l.filter (fun h => decide (h.best_score = s)) := by
  intro l
  induction l with
  | nil => rfl
  | cons x xs ih =>
    unfold sortLe
    by_cases hx : decide (x.best_score = s) = true
    · rw [insertLe_filter_of_true _ x hx
        (fun y hy => by
          have hlt := hitGe_false_lt hy
          have hxs : x.best_score = s := of_decide_eq_true hx
          simp only [decide_eq_false_iff_not]
          intro hys
          rw [hxs, hys] at hlt
          exact lt_irrefl s hlt)]
      rw [ih]
      simp [List.filter_cons, hx]
    · have hx' : (fun h : EntityHit => decide (h.best_score = s)) x = false := by
        simpa using hx
      rw [insertLe_filter_of_false _ _ x hx', ih, List.filter_cons]
      simp [hx']

theorem sorted_take_drop {l : List EntityHit} (h : SortedDesc l) (n : Nat) :
    ∀ x ∈ l.take n, ∀ y ∈ l.drop n, y.best_score ≤ x.best_score := by
  have h' : SortedDesc (l.take n ++ l.drop n) := by
    rw [List.take_append_drop]; exact h
  exact fun x hx y hy => (List.pairwise_append.mp h').2.2 x hx y hy

/-! ## The screening pipeline -/

theorem screenCompany_ok {q : List Char} (hq : pyNormalize q ≠ [])
    (idx : List EntityRec) (topK : Int) (review block : ℚ) :
    screenCompany q idx topK review block =
      .ok (pyTake (sortLe hitGe (surviveFloor q idx review)) topK,
        match pyTake (sortLe hitGe (surviveFloor q idx review)) topK with
        | [] => "PASS"
        | h :: _ => if block ≤ h.best_score then "BLOCK" else "REVIEW") := by
  unfold screenCompany
  rw [if_neg (by simp [List.isEmpty_iff, hq])]

theorem surviveFloor_eq (q : List Char) (idx : List EntityRec) (review : ℚ) :
    surviveFloor q idx review =
      (idx.filter (fun e => decide (review ≤ (bestEvidence q e).score))).map
        (fun e => mkHit e (bestEvidence q e)) := by
  induction idx with
  | nil => rfl
  | cons e es ih =>
    unfold surviveFloor at *
    rw [List.filterMap_cons, List.filter_cons]
    by_cases h : review ≤ (bestEvidence q e).score
    · rw [if_pos h]
      simp only [decide_eq_true_eq, h, if_true, List.map_cons]
      rw [ih]
    · rw [if_neg h]
      simp only [decide_eq_true_eq, h, if_false]
      rw [ih]

/-- C9: a screening call returns the `InvalidInput` error (Python: raises
`ValueError("Company name is empty after normalization")`) exactly when
the query normalizes to the empty string; every other query value yields a
normal result for any index and thresholds. -/
theorem claim9_invalid_query_iff (q : List Char) (idx : List EntityRec)
    (topK : Int) (review block : ℚ) :
    (screenIsError (screenCompany q idx topK review block) = true ↔
      pyNormalize q = []) ∧
    (pyNormalize q = [] →
      screenCompany q idx topK review block =
        .error "Company name is empty after normalization") := by
  constructor
  · by_cases h : pyNormalize q = []
    · unfold screenCompany
      rw [if_pos (by simp [h])]
      simp [screenIsError, h]
    · rw [screenCompany_ok h]
      simp [screenIsError, h]
  · intro h
    unfold screenCompany
    rw [if_pos (by simp [h])]

/-- C9, witness: the empty query aborts, a real name does not. -/
theorem claim9_invalid_query_iff_witness :
    screenCompany "  .,; ".toList [] 10 20 90 =
      .error "Company name is empty after normalization" ∧
    screenIsError (screenCompany "acme".toList [] 10 20 90) = false := by
  constructor
  · exact (claim9_invalid_query_iff "  .,; ".toList [] 10 20 90).2 (by decide)
  · have h := (claim9_invalid_query_iff "acme".toList [] 10 20 90).1
    have : ¬pyNormalize "acme".toList = [] := by decide
    cases he : screenIsError (screenCompany "acme".toList [] 10 20 90)
    · rfl
    · exact absurd (h.mp he) this

/-- C5: with a valid query the call never raises — an empty hit list is
the `PASS` decision — and the decision is: `BLOCK` when the top returned
hit scores at or above `block`, `REVIEW` when hits were returned with the
top one below `block`, `PASS` when no hits remain. -/
theorem claim5_decision_policy (q : List Char) (idx : List EntityRec)
    (topK : Int) (review block : ℚ) (hq : pyNormalize q ≠ []) :
    ∃ hits d, screenCompany q idx topK review block = .ok (hits, d) ∧
      (hits = [] → d = "PASS") ∧
      (∀ h rest, hits = h :: rest →
        (block ≤ h.best_score → d = "BLOCK") ∧
        (h.best_score < block → d = "REVIEW")) := by
  rw [screenCompany_ok hq]
  refine ⟨_, _, rfl, ?_, ?_⟩
  · intro h
    rw [h]
  · intro h rest hhits
    rw [hhits]
    constructor
    · intro hb
      simp [if_pos hb]
    · intro hb
      simp [if_neg (not_le.mpr hb)]

/-- C5, witness: an empty index gives no matches and the `PASS` decision,
with no error raised. -/
theorem claim5_decision_policy_witness :
    screenDecision (screenCompany "acme".toList [] 10 20 90) = "PASS" := by
  obtain ⟨hits, d, heq, hpass, _⟩ :=
    claim5_decision_policy "acme".toList [] 10 20 90 (by decide)
  have h0 : screenCompany "acme".toList [] 10 20 90 = .ok ([], "PASS") := by
    with_unfolding_all decide
  rw [heq] at h0
  have h1 : hits = [] ∧ d = "PASS" := by
    injection h0 with h0'
    exact ⟨(Prod.mk.injEq _ _ _ _ ▸ h0').1, (Prod.mk.injEq _ _ _ _ ▸ h0').2⟩
  rw [heq, screenDecision, h1.2]

/-- C10 (amended): with `top_k = 0` the truncation `hits[:0]` empties the
hit list, so the decision is `PASS` even when an entity scores at or above
`block_threshold`.  (For *negative* `top_k` the claim as stated fails:
Python's `hits[:top_k]` then drops `|top_k|` hits from the end, see the
counterexample.) -/
theorem claim10_topk_zero (q : List Char) (idx : List EntityRec)
    (review block : ℚ) (hq : pyNormalize q ≠ []) :
    screenCompany q idx 0 review block = .ok ([], "PASS") := by
  rw [screenCompany_ok hq]
  have h : pyTake (sortLe hitGe (surviveFloor q idx review)) 0 = [] := by
    unfold pyTake
    simp
  rw [h]

/-- C10, counterexample to the claim as stated: `top_k = -1 ≤ 0`, two
entities survive, and the result is one hit with decision `BLOCK`, not an
empty list with `PASS` — Python's `hits[:-1]` keeps all but the last
hit. -/
theorem claim10_counterexample :
    ((-1 : Int) ≤ 0) ∧
    screenDecision (screenCompany "acme corp".toList [entAcmeCorp, entAcme]
      (-1) 20 90) = "BLOCK" ∧
    screenHitCount (screenCompany "acme corp".toList [entAcmeCorp, entAcme]
      (-1) 20 90) = 1 := by
  refine ⟨by norm_num, ?_, ?_⟩ <;> with_unfolding_all decide

/-- C10, witness for the amended claim. -/
theorem claim10_topk_zero_witness :
    screenCompany "acme corp".toList [entAcmeCorp, entAcme] 0 20 90 =
      .ok ([], "PASS") :=
  claim10_topk_zero "acme corp".toList [entAcmeCorp, entAcme] 20 90 (by decide)

/-- C6 (amended, `top_k ≥ 0`): entities scoring below the review floor are
discarded (in index order), the survivors are sorted by score descending
with exact ties kept in insertion order (stable sort), and the result is
the first `top_k` of that ranking — at most `top_k` hits, each scoring at
least as high as every hit dropped by the truncation.  (For negative
`top_k` the claim as stated fails, see the counterexample.) -/
theorem claim6_ranking (q : List Char) (idx : List EntityRec) (topK : Int)
    (review block : ℚ) (hq : pyNormalize q ≠ []) (hk : 0 ≤ topK) :
    ∃ hits d, screenCompany q idx topK review block = .ok (hits, d) ∧
      surviveFloor q idx review =
        (idx.filter (fun e => decide (review ≤ (bestEvidence q e).score))).map
          (fun e => mkHit e (bestEvidence q e)) ∧
      hits = (sortLe hitGe (surviveFloor q idx review)).take topK.toNat ∧
      (sortLe hitGe (surviveFloor q idx review)).Perm
        (surviveFloor q idx review) ∧
      SortedDesc (sortLe hitGe (surviveFloor q idx review)) ∧
      (∀ s : ℚ, (sortLe hitGe (surviveFloor q idx review)).filter
          (fun h => decide (h.best_score = s)) =
        (surviveFloor q idx review).filter
          (fun h => decide (h.best_score = s))) ∧
      hits.length ≤ topK.toNat ∧
      (∀ x ∈ hits, ∀ y ∈ (sortLe hitGe (surviveFloor q idx review)).drop
        topK.toNat, y.best_score ≤ x.best_score) := by
  rw [screenCompany_ok hq]
  have htake : pyTake (sortLe hitGe (surviveFloor q idx review)) topK =
      (sortLe hitGe (surviveFloor q idx review)).take topK.toNat := by
    unfold pyTake
    rw [if_pos hk]
  refine ⟨_, _, rfl, surviveFloor_eq q idx review, htake,
    sortLe_perm hitGe _, sortLe_sorted _, fun s => sortLe_stable s _, ?_, ?_⟩
  · rw [htake]
    exact List.length_take_le _ _
  · rw [htake]
    exact sorted_take_drop (sortLe_sorted _) topK.toNat

/-- C6, counterexample to the universal claim: at `top_k = -1` the result
is 1 hit, which is not "at most `top_k` hits". -/
theorem claim6_counterexample :
    screenHitCount (screenCompany "acme corp".toList [entAcmeCorp, entAcme]
      (-1) 20 90) = 1 ∧
    ¬((1 : Int) ≤ -1) :=
  ⟨by with_unfolding_all decide, by norm_num⟩

/-- C6, witness: two surviving entities, `top_k = 1`, one hit returned. -/
theorem claim6_ranking_witness :
    screenHitCount (screenCompany "acme corp".toList [entAcmeCorp, entAcme]
      1 20 90) ≤ 1 := by
  obtain ⟨hits, d, heq, _, _, _, _, _, hlen, _⟩ :=
    claim6_ranking "acme corp".toList [entAcmeCorp, entAcme] 1 20 90
      (by decide) (by norm_num)
  rw [heq, screenHitCount]
  exact hlen

/-! ## The index-builder invariant (claim C7) -/

theorem pickFirst_ne_empty {r : Row} :
    ∀ (ks : List String) (v : String), pickFirst r ks = some v → v ≠ "" := by
  intro ks
  induction ks with
  | nil => intro v h; simp [pickFirst] at h
  | cons k ks ih =>
    intro v h
    unfold pickFirst at h
    cases hg : rowGet r k with
    | none =>
      rw [hg] at h
      exact ih v h
    | some w =>
      rw [hg] at h
      have h' : (if w ≠ "" then some w else pickFirst r ks) = some v := h
      by_cases hw : w ≠ ""
      · rw [if_pos hw] at h'
        cases h'
        exact hw
      · rw [if_neg hw] at h'
        exact ih v h'

theorem updateEnt_mem {l : ConsIndex} {key : String} {f : EntityB → EntityB}
    {p : String × EntityB} (h : p ∈ updateEnt l key f) :
    ∃ q ∈ l, p = if q.1 = key then (q.1, f q.2) else q := by
  unfold updateEnt at h
  rcases List.mem_map.mp h with ⟨q, hq, heq⟩
  exact ⟨q, hq, heq.symm⟩

theorem ensure_mem {idx : ConsIndex} {sl eid : String} {p : String × EntityB}
    (h : p ∈ ensure idx sl eid) :
    p ∈ idx ∨ p = (consKey sl eid, ⟨sl, eid, [], [], [], []⟩) := by
  unfold ensure at h
  split at h
  · exact Or.inl h
  · rcases List.mem_append.mp h with h' | h'
    · exact Or.inl h'
    · exact Or.inr (List.mem_singleton.mp h')

theorem addPrimaryRow_primary (sl : String) (r : Row) {idx : ConsIndex}
    (h : ∀ p ∈ idx, p.2.primary ≠ [] ∧ ∀ n ∈ p.2.primary, n ≠ "") :
    ∀ p ∈ addPrimaryRow sl idx r,
      p.2.primary ≠ [] ∧ ∀ n ∈ p.2.primary, n ≠ "" := by
  intro p hp
  unfold addPrimaryRow at hp
  cases he : pickEntityId r with
  | none => rw [he] at hp; exact h p hp
  | some eid =>
    rw [he] at hp
    cases hn : pickName r with
    | none => rw [hn] at hp; exact h p hp
    | some name =>
      rw [hn] at hp
      have hname : name ≠ "" := pickFirst_ne_empty _ name hn
      rcases updateEnt_mem hp with ⟨q, hq, hpq⟩
      by_cases hk : q.1 = consKey sl eid
      · rw [hpq, if_pos hk]
        have hqp : (match pickProgram r with
            | some pr => { { q.2 with primary := q.2.primary ++ [name] } with
                programs := addSet { q.2 with
                  primary := q.2.primary ++ [name] }.programs pr }
            | none => { q.2 with primary := q.2.primary ++ [name] }).primary =
            q.2.primary ++ [name] := by
          cases pickProgram r <;> rfl
        refine ⟨by rw [hqp]; simp, ?_⟩
        intro n hnmem
        rw [hqp] at hnmem
        rcases List.mem_append.mp hnmem with hm | hm
        · rcases ensure_mem hq with hq' | hq'
          · exact (h q hq').2 n hm
          · rw [hq'] at hm
            simp at hm
        · rw [List.mem_singleton.mp hm]
          exact hname
      · rw [hpq, if_neg hk]
        rcases ensure_mem hq with hq' | hq'
        · exact h q hq'
        · rw [hq'] at hk
          exact absurd rfl hk

/-- C7, counterexample: an address-only row (with an entity number but no
name) makes an entity visible in the index with an *empty*
`primary_names` list — `add_addresses` calls `ensure` before any name
exists for the key. -/
theorem claim7_counterexample :
    (consIndex [] [] [rowAddrOnly]).map (fun p => (p.1, p.2.primary)) =
      [("OFAC-CONS:123", [])] := by decide

/-- C7 (amended): entities reached by name-bearing primary rows do satisfy
the invariant — when the index is built from primary-name rows, every
visible entity has at least one primary name and none of its primary
names is the empty string; but rows lacking a usable name (such as
address-only rows, see the counterexample) create visible entities whose
`primary_names` list is empty. -/
theorem claim7_primary_invariant (prim : List Row) :
    ∀ p ∈ consIndex prim [] [],
      p.2.primary ≠ [] ∧ ∀ n ∈ p.2.primary, n ≠ "" := by
  suffices haux : ∀ (l : List Row) (idx : ConsIndex),
      (∀ p ∈ idx, p.2.primary ≠ [] ∧ ∀ n ∈ p.2.primary, n ≠ "") →
      ∀ p ∈ l.foldl (addPrimaryRow "OFAC-CONS") idx,
        p.2.primary ≠ [] ∧ ∀ n ∈ p.2.primary, n ≠ "" by
    exact haux prim [] (by simp)
  intro l
  induction l with
  | nil => intro idx h; exact h
  | cons r rs ih =>
    intro idx h
    exact ih (addPrimaryRow "OFAC-CONS" idx r)
      (addPrimaryRow_primary "OFAC-CONS" r h)

/-- C7, witness: a primary row yields a visible entity whose single
primary name is nonempty. -/
theorem claim7_primary_invariant_witness :
    ("OFAC-CONS:9",
      ({ source_list := "OFAC-CONS", entity_id := "9",
         primary := ["Acme Corp"], aliases := [], programs := [],
         addresses := [] } : EntityB)).2.primary ≠ [] :=
  (claim7_primary_invariant [rowPrim] _ (by decide)).1

/-! ## The pseudo-identifier (claim C8) -/

theorem toHex_length : ∀ bs : List Nat, (toHex bs).length = 2 * bs.length
  | [] => rfl
  | b :: bs => by
    have ih := toHex_length bs
    have hstep : toHex (b :: bs) =
        hexDigit (b / 16) :: hexDigit (b % 16) :: toHex bs := rfl
    rw [hstep, List.length_cons, List.length_cons, ih, List.length_cons]
    ring

theorem sha256_length (m : List Nat) : (sha256 m).length = 32 := by
  unfold sha256 be32
  simp

theorem sha256hex_length (m : List Nat) : (sha256hex m).length = 64 := by
  unfold sha256hex
  rw [toHex_length, sha256_length]

/-- C8 (amended): for source records lacking a native identifier, the
entity key is a deterministic function of the *extracted* primary name —
the name as read from the row (whitespace-stripped by extraction), not
the `_normalize`d name.  The CA, AU and WB branches assign the source
code, a dash, and the first 8 hex characters of the SHA-256 digest of the
extracted name; the BIS branch instead keys the record by the extracted
name itself, with no digest and no prefix.  In every branch the id is a
pure function of the extracted name, so on one snapshot the same name
yields the same identifier on every rebuild, and rows carrying a usable
native id keep it. -/
theorem claim8_pseudo_id (name : List Char) :
    (wbAssignId [] name = "WB-".toList ++ (sha256hex (utf8Encode name)).take 8 ∧
      auAssignId [] name = "AU-".toList ++ (sha256hex (utf8Encode name)).take 8 ∧
      caAssignId [] name = "CA-".toList ++ (sha256hex (utf8Encode name)).take 8 ∧
      bisAssignId [] name = name) ∧
    ((sha256hex (utf8Encode name)).take 8).length = 8 ∧
    ∀ uid : List Char, uid ≠ [] → uid ≠ "nan".toList →
      wbAssignId uid name = uid ∧ auAssignId uid name = uid ∧
      caAssignId uid name = uid ∧ bisAssignId uid name = uid := by
  refine ⟨⟨by rw [wbAssignId, if_pos (Or.inl rfl)],
    by rw [auAssignId, if_pos (Or.inl rfl)],
    by rw [caAssignId, if_pos rfl],
    by rw [bisAssignId, if_pos rfl]⟩, ?_, ?_⟩
  · rw [List.length_take, sha256hex_length]
    norm_num
  · intro uid h1 h2
    refine ⟨?_, ?_, ?_, ?_⟩
    · unfold wbAssignId
      rw [if_neg (by rintro (hc | hc) <;> [exact h1 hc; exact h2 hc])]
    · unfold auAssignId
      rw [if_neg (by rintro (hc | hc) <;> [exact h1 hc; exact h2 hc])]
    · unfold caAssignId
      rw [if_neg h1]
    · unfold bisAssignId
      rw [if_neg h1]

/-- C8, counterexample to the claim as stated, on two independent points.
First, the digest is *not* taken over the normalized primary name: for
`"Acme Corp"` (normalized: `"acme corp"`) the World Bank id differs from
the digest of the normalization, and two names with identical
normalizations receive different pseudo-identifiers.  Second, the BIS
branch assigns no digest at all: a BIS row without an entity number is
keyed by the raw name itself, which matches neither the digest of the
extracted name nor the digest of the normalized name, and carries no
source-code prefix. -/
theorem claim8_counterexample :
    wbAssignId [] "Acme Corp".toList ≠
      "WB-".toList ++
        (sha256hex (utf8Encode (pyNormalize "Acme Corp".toList))).take 8 ∧
    wbAssignId [] "Acme Corp".toList ≠ wbAssignId [] "acme corp".toList ∧
    pyNormalize "Acme Corp".toList = pyNormalize "acme corp".toList ∧
    bisAssignId [] "Acme Corp".toList = "Acme Corp".toList ∧
    bisAssignId [] "Acme Corp".toList ≠
      "BIS-".toList ++ (sha256hex (utf8Encode "Acme Corp".toList)).take 8 ∧
    bisAssignId [] "Acme Corp".toList ≠
      "BIS-".toList ++
        (sha256hex (utf8Encode (pyNormalize "Acme Corp".toList))).take 8 := by
  refine ⟨?_, ?_, ?_, ?_, ?_, ?_⟩ <;> decide

/-- C8, witness: native ids are kept in all four branches, and id-less
rows get the per-branch key. -/
theorem claim8_pseudo_id_witness :
    wbAssignId "WB123".toList "Acme Corp".toList = "WB123".toList ∧
    bisAssignId "E123".toList "Acme Corp".toList = "E123".toList ∧
    wbAssignId [] "Acme Corp".toList =
      "WB-".toList ++ (sha256hex (utf8Encode "Acme Corp".toList)).take 8 ∧
    bisAssignId [] "Acme Corp".toList = "Acme Corp".toList := by
  have h := claim8_pseudo_id "Acme Corp".toList
  have hkeep := h.2.2 "WB123".toList (by decide) (by decide)
  have hkeep2 := h.2.2 "E123".toList (by decide) (by decide)
  exact ⟨hkeep.1, hkeep2.2.2.2, h.1.1, h.1.2.2.2⟩

end Ofac
